import Mathlib

/-!
# Shallow embedding of the Gomoku search engine (`gomoku_ai.py`)

The board is a 15×15 grid of cells holding `none`, `some black` or
`some white`.  The Python module represents it as a list of lists and
mutates it in place during search; here the board is a total function
`Int → Int → Option Color`, mutation becomes `setCell`, and the
stateful search routines (`minimax`, `ai_search`) return the final
board alongside their value so that the make/undo discipline can be
stated and proved.  All cell reads in the Python scanning loops are
guarded by `0 <= r < 15 and 0 <= c < 15`; the same guards appear here,
so the functional board is read exactly where the source reads it.
-/

set_option maxRecDepth 4000

inductive Color : Type
  | black
  | white
deriving DecidableEq, Repr

def oppOf : Color → Color
  | .black => .white
  | .white => .black

abbrev Board := Int → Int → Option Color

def BOARD_SIZE : Int := 15

def CENTER : Int := 7

/-- In-board test `0 <= r < BOARD_SIZE and 0 <= c < BOARD_SIZE`. -/
def inB (r c : Int) : Bool :=
  decide (0 ≤ r) && decide (r < 15) && decide (0 ≤ c) && decide (c < 15)

/-- Writing one cell of the board (Python `state[r][c] = v`). -/
def setCell (b : Board) (r c : Int) (v : Option Color) : Board :=
  fun r' c' => if r' = r ∧ c' = c then v else b r' c'

/-- The row-major index list `range(BOARD_SIZE)` as integers. -/
def idx15 : List Int := (List.range 15).map (fun n => (n : Int))

/-- All 225 coordinates in row-major order (the iteration order of the
Python comprehensions `for r in range(15) for c in range(15)`). -/
def allCells : List (Int × Int) :=
  idx15.flatMap (fun r => idx15.map (fun c => (r, c)))

/-- `get_empty_cells`: row-major list of all empty in-board cells. -/
def get_empty_cells (b : Board) : List (Int × Int) :=
  allCells.filter (fun m => b m.1 m.2 == none)

/-- Offsets `range(-dist, dist + 1)` for `dist = 2`. -/
def offs : List Int := [-2, -1, 0, 1, 2]

/-- `neighbors_exist`: some in-board occupied cell lies within the 5×5
box around `(r, c)`, the cell itself excluded. -/
def neighbors_exist (b : Board) (r c : Int) : Bool :=
  offs.any fun dr => offs.any fun dc =>
    !(dr == 0 && dc == 0) && inB (r + dr) (c + dc) && (b (r + dr) (c + dc)).isSome

/-- `candidate_moves`: the single centre cell on an empty board;
otherwise the empty cells having a stone within Chebyshev distance 2,
falling back to all empty cells when that filter is empty. -/
def candidate_moves (b : Board) : List (Int × Int) :=
  let empties := get_empty_cells b
  let anyStone := allCells.any (fun m => (b m.1 m.2).isSome)
  if anyStone then
    let cand := empties.filter (fun m => neighbors_exist b m.1 m.2)
    if cand = [] then empties else cand
  else [(CENTER, CENTER)]

/-- The four scan axes of the source. -/
def directions : List (Int × Int) := [(0, 1), (1, 0), (1, 1), (1, -1)]

/-- `cellEq`: the guarded read `0 <= r < 15 and 0 <= c < 15 and
state[r][c] == color` used by every while loop of the source. -/
def cellEq (b : Board) (r c : Int) (color : Color) : Bool :=
  inB r c && (b r c == some color)

/-- Length of the run of `color` stones starting one step away from
`(r, c)` in direction `(dx, dy)` (the source's while loop counting
`cnt`).  A maximal in-board ray holds at most 15 cells, so scanning 15
steps is exhaustive. -/
def runLen (b : Board) (r c dx dy : Int) (color : Color) : Nat :=
  ((List.range 15).takeWhile
    (fun k : Nat => cellEq b (r + ((k : Int) + 1) * dx) (c + ((k : Int) + 1) * dy) color)).length

/-- `is_win_at`: counting outward from `(row, col)` in both directions
of some axis (the queried cell itself contributes 1 and is never read)
reaches five. -/
def is_win_at (b : Board) (row col : Int) (color : Color) : Bool :=
  directions.any fun d =>
    5 ≤ 1 + runLen b row col d.1 d.2 color + runLen b row col (-d.1) (-d.2) color

/-- `try_move_is_win`: place the stone, test, undo. -/
def try_move_is_win (b : Board) (r c : Int) (color : Color) : Bool :=
  is_win_at (setCell b r c (some color)) r c color

/-- The first in-line cell after the forward run in direction
`(dx, dy)`: the position at which the source's while loop stopped. -/
def stopAt (b : Board) (r c dx dy : Int) (color : Color) : Int × Int :=
  (r + ((runLen b r c dx dy color : Int) + 1) * dx,
   c + ((runLen b r c dx dy color : Int) + 1) * dy)

/-- The open-end test the source performs after each while loop:
after the run, the next cell is in board and empty. -/
def openEnd (b : Board) (r c dx dy : Int) (color : Color) : Bool :=
  let p := stopAt b r c dx dy color
  inB p.1 p.2 && (b p.1 p.2 == none)

/-- `is_open_threat`: placing `color` at the empty cell `(row, col)`
yields, along some axis, a run of length ≥ `minCount` with an open
(in-board, empty) cell just beyond one of its two ends. -/
def is_open_threat (b : Board) (row col : Int) (color : Color) (minCount : Nat) : Bool :=
  if (b row col).isSome then false
  else directions.any fun d =>
    let cnt := 1 + runLen b row col d.1 d.2 color + runLen b row col (-d.1) (-d.2) color
    decide (minCount ≤ cnt) &&
      (openEnd b row col (-d.1) (-d.2) color || openEnd b row col d.1 d.2 color)

/-- `count_threat_level` on the functional board (the unguarded Python
read `state[row][col]` is treated separately in the list model below). -/
def count_threat_level (b : Board) (row col : Int) (color : Color) : Nat :=
  if (b row col).isSome then 0
  else (directions.map (fun d =>
    1 + runLen b row col d.1 d.2 color + runLen b row col (-d.1) (-d.2) color)).foldl max 0

/-! ## Heuristic evaluation -/

/-- Row `r` of the board as a line (left to right). -/
def rowLine (b : Board) (r : Int) : List (Option Color) :=
  idx15.map (fun c => b r c)

/-- Column `c` of the board as a line (top to bottom). -/
def colLine (b : Board) (c : Int) : List (Option Color) :=
  idx15.map (fun r => b r c)

/-- The ↘ diagonal collected by the source for offset `d`:
cells `(r, r + d)` for the `r` with `0 <= r + d < 15`. -/
def diag1Line (b : Board) (d : Int) : List (Option Color) :=
  idx15.filterMap (fun r => if 0 ≤ r + d ∧ r + d < 15 then some (b r (r + d)) else none)

/-- The ↗ diagonal collected by the source for offset `d`:
cells `(r, 14 - r - d)` for the `r` with `0 <= 14 - r - d < 15`. -/
def diag2Line (b : Board) (d : Int) : List (Option Color) :=
  idx15.filterMap (fun r => if 0 ≤ 14 - r - d ∧ 14 - r - d < 15 then some (b r (14 - r - d)) else none)

/-- `range(-(n - 5), n - 4)` for `n = 15`: the diagonal offsets −10…10. -/
def dRange : List Int := (List.range 21).map (fun n => (n : Int) - 10)

/-- The line list built by `score_color`: all rows, all columns, then
for each offset the two diagonals, kept only when their length is ≥ 5. -/
def allLines (b : Board) : List (List (Option Color)) :=
  idx15.map (rowLine b) ++ idx15.map (colLine b) ++
    dRange.flatMap (fun d =>
      (if 5 ≤ (diag1Line b d).length then [diag1Line b d] else []) ++
      (if 5 ≤ (diag2Line b d).length then [diag2Line b d] else []))

/-- The source's cell encoding inside `seq_score`:
own stone ↦ 1, empty ↦ 0, opponent stone ↦ −1. -/
def stoneVal (color : Color) (v : Option Color) : Int :=
  if v = some color then 1 else if v = none then 0 else -1

/-- One iteration of the window loop of `seq_score`: the contribution
of the window `stones[i : i + 5]`, with the open ends read from `seq`. -/
def windowRaw (seq : List (Option Color)) (stones : List Int) (i : Nat) : Int :=
  let window := (stones.drop i).take 5
  let myCnt := window.count 1
  let oppCnt := window.count (-1)
  let emptyCnt := window.count 0
  let leftOpen := decide (0 < i) && (seq.get? (i - 1) == some none)
  let rightOpen := decide (i + 5 < seq.length) && (seq.get? (i + 5) == some none)
  if oppCnt = 0 then
    if myCnt = 5 then 100000
    else if myCnt = 4 ∧ emptyCnt = 1 then (if leftOpen || rightOpen then 10000 else 3000)
    else if myCnt = 3 ∧ emptyCnt = 2 then (if leftOpen && rightOpen then 1000 else 200)
    else if myCnt = 2 ∧ emptyCnt = 3 then (if leftOpen || rightOpen then 50 else 0)
    else 0
  else 0

/-- `seq_score`: slide a window of five over the line and sum the
window contributions. -/
def seq_score (color : Color) (seq : List (Option Color)) : Int :=
  let stones := seq.map (stoneVal color)
  ((List.range (seq.length - 4)).map (fun i => windowRaw seq stones i)).sum

/-- `score_color`: the sum of `seq_score` over every collected line. -/
def score_color (b : Board) (color : Color) : Int :=
  ((allLines b).map (seq_score color)).sum

/-- `evaluate`: own score minus the opponent's score. -/
def evaluate (b : Board) (perspective : Color) : Int :=
  score_color b perspective - score_color b (oppOf perspective)

/-! ## Move ordering and search -/

/-- `ordered_candidates`: the single pass of the source partitions the
candidates into wins, blocks, defensive moves and the rest (first
matching branch of the `if`/`elif` chain), keeping generation order
inside each part, and concatenates the four parts. -/
def ordered_candidates (b : Board) (ai : Color) : List (Int × Int) :=
  let opp := oppOf ai
  let cand := candidate_moves b
  let wins := cand.filter (fun m => try_move_is_win b m.1 m.2 ai)
  let blocks := cand.filter (fun m =>
    !try_move_is_win b m.1 m.2 ai && try_move_is_win b m.1 m.2 opp)
  let defensive := cand.filter (fun m =>
    !try_move_is_win b m.1 m.2 ai && !try_move_is_win b m.1 m.2 opp &&
      is_open_threat b m.1 m.2 opp 3)
  let rest := cand.filter (fun m =>
    !try_move_is_win b m.1 m.2 ai && !try_move_is_win b m.1 m.2 opp &&
      !is_open_threat b m.1 m.2 opp 3)
  wins ++ blocks ++ defensive ++ rest

/-- The `max_candidates` block that appears verbatim (up to the two
colours) in `ai_search` and in both branches of `minimax`: recompute
the wins/blocks/defensive tiers of `oc` by membership-excluding
filters, and keep the whole forcing tiers plus the first
`max(0, cap − |wins| − |blocks| − |defensive|)` rest moves. -/
def applyCap (b : Board) (mover other : Color) (oc : List (Int × Int)) :
    Option Nat → List (Int × Int)
  | none => oc
  | some cap =>
      let wins := oc.filter (fun m => try_move_is_win b m.1 m.2 mover)
      let blocks := oc.filter (fun m =>
        !wins.contains m && try_move_is_win b m.1 m.2 other)
      let defensive := oc.filter (fun m =>
        !wins.contains m && !blocks.contains m && is_open_threat b m.1 m.2 other 3)
      let rest := oc.filter (fun m =>
        !wins.contains m && !blocks.contains m && !defensive.contains m)
      wins ++ blocks ++ defensive ++
        rest.take (cap - (wins.length + blocks.length + defensive.length))

/-- The candidate loop of the maximizing branch of `minimax`.  `rec`
is the recursive call one ply down, receiving the mutated board and
the current `alpha`, `beta`.  Each iteration places the stone, scores
the child (an immediate win short-circuits to 100000), undoes the
placement, raises `value` and — under alpha–beta — `alpha`, and breaks
as soon as `alpha ≥ beta`. -/
def maxLoop (rec : Board → Int → Int → Int × Board) (ai : Color) (useAb : Bool) :
    List (Int × Int) → Int → Int → Int → Board → Int × Board
  | [], value, _, _, st => (value, st)
  | (r, c) :: ms, value, alpha, beta, st =>
      let st1 := setCell st r c (some ai)
      let res := if is_win_at st1 r c ai then ((100000 : Int), st1) else rec st1 alpha beta
      let st2 := setCell res.2 r c none
      let value' := if res.1 > value then res.1 else value
      if useAb then
        let alpha' := if value' > alpha then value' else alpha
        if alpha' ≥ beta then (value', st2)
        else maxLoop rec ai useAb ms value' alpha' beta st2
      else maxLoop rec ai useAb ms value' alpha beta st2

/-- The candidate loop of the minimizing branch of `minimax`: the
mirror image of `maxLoop` (opponent stone, −100000 for an immediate
opponent win, `value` lowered, `beta` lowered, same cutoff). -/
def minLoop (rec : Board → Int → Int → Int × Board) (opp : Color) (useAb : Bool) :
    List (Int × Int) → Int → Int → Int → Board → Int × Board
  | [], value, _, _, st => (value, st)
  | (r, c) :: ms, value, alpha, beta, st =>
      let st1 := setCell st r c (some opp)
      let res := if is_win_at st1 r c opp then ((-100000 : Int), st1) else rec st1 alpha beta
      let st2 := setCell res.2 r c none
      let value' := if res.1 < value then res.1 else value
      if useAb then
        let beta' := if value' < beta then value' else beta
        if alpha ≥ beta' then (value', st2)
        else minLoop rec opp useAb ms value' alpha beta' st2
      else minLoop rec opp useAb ms value' alpha beta st2

/-- The body of `minimax` under an explicit recursion bound `fuel`.
At `depth == 0` or with no candidates the static evaluation (always
from `ai`'s perspective) is returned; otherwise the side to move at
this node iterates its ordered, optionally capped candidates.  The
board travels with the result so the make/undo discipline is part of
the definition.

`depth` is the Python `int`: started negative (as `ai_search(depth=0)`
does via `minimax(state, -1, ...)`) the `depth == 0` test never fires
again and the loop recurses until `candidate_moves` is empty.  That
recursion terminates because every recursive call first fills one of
the at most 225 empty cells, so the recursion depth is bounded by the
number of empty cells; `fuel` makes this bound explicit.
`minimaxF_fuel_irrel` below proves the result identical for every
sufficient fuel, so the `fuel = 0` fallback is unreachable from
`minimax`, which supplies fuel 226 > 225. -/
def minimaxF : Nat → Int → Board → Bool → Color → Color → Int → Int → Bool →
    Option Nat → Int × Board
  | 0, _, st, _, ai, _, _, _, _, _ => (evaluate st ai, st)
  | f + 1, depth, st, maximizing, ai, opp, alpha, beta, useAb, maxc =>
      if depth = 0 ∨ candidate_moves st = [] then (evaluate st ai, st)
      else if maximizing then
        let oc := applyCap st ai opp (ordered_candidates st ai) maxc
        maxLoop (fun s a bt => minimaxF f (depth - 1) s false ai opp a bt useAb maxc)
          ai useAb oc (-(10 ^ 9)) alpha beta st
      else
        let oc := applyCap st opp ai (ordered_candidates st opp) maxc
        minLoop (fun s a bt => minimaxF f (depth - 1) s true ai opp a bt useAb maxc)
          opp useAb oc (10 ^ 9) alpha beta st

/-- `minimax`: `minimaxF` at fuel 226, which exceeds the number of
empty cells of any board and hence is never exhausted
(`minimax_fuel_sufficient`). -/
def minimax (depth : Int) (st : Board) (maximizing : Bool) (ai opp : Color)
    (alpha beta : Int) (useAb : Bool) (maxc : Option Nat) : Int × Board :=
  minimaxF 226 depth st maximizing ai opp alpha beta useAb maxc

/-- The root loop of `ai_search`: like `maxLoop` but remembering the
argmax (strict `>`, so the first candidate attaining the maximum is
kept) and never short-circuiting on an immediate win. -/
def rootLoop (rec : Board → Int → Int → Int × Board) (ai : Color) (useAb : Bool) :
    List (Int × Int) → Option (Int × Int) → Int → Int → Int → Board →
      Option (Int × Int) × Int × Board
  | [], best, bscore, _, _, st => (best, bscore, st)
  | (r, c) :: ms, best, bscore, alpha, beta, st =>
      let st1 := setCell st r c (some ai)
      let res := rec st1 alpha beta
      let st2 := setCell res.2 r c none
      let best' := if res.1 > bscore then some (r, c) else best
      let bscore' := if res.1 > bscore then res.1 else bscore
      if useAb then
        let alpha' := if bscore' > alpha then bscore' else alpha
        if alpha' ≥ beta then (best', bscore', st2)
        else rootLoop rec ai useAb ms best' bscore' alpha' beta st2
      else rootLoop rec ai useAb ms best' bscore' alpha beta st2

/-- `ai_search`: iterate the mover's ordered (optionally capped)
candidates at the root, scoring each by `minimax` one ply down with
`maximizing = false`.  Besides the chosen move the embedding returns
the source's local `best_score` and the final board. -/
def ai_search (st : Board) (ai opp : Color) (depth : Int) (useAb : Bool)
    (maxc : Option Nat) : Option (Int × Int) × Int × Board :=
  let oc := applyCap st ai opp (ordered_candidates st ai) maxc
  rootLoop (fun s a bt => minimax (depth - 1) s false ai opp a bt useAb maxc)
    ai useAb oc none (-(10 ^ 9)) (-(10 ^ 9)) (10 ^ 9) st

/-! ## Spec-side definitions

These are written from the specification's words, to be compared with
the definitions above, which are translated from the source. -/

/-- Spec side: some in-board occupied cell lies within Chebyshev
distance 2 of `(r, c)`. -/
def chebNear (b : Board) (r c : Int) : Prop :=
  ∃ p : Fin 15 × Fin 15, (b (p.1 : Int) (p.2 : Int)).isSome ∧
    (r - (p.1 : Int)).natAbs ≤ 2 ∧ (c - (p.2 : Int)).natAbs ≤ 2

instance (b : Board) (r c : Int) : Decidable (chebNear b r c) := by
  unfold chebNear; infer_instance

/-- Spec side: the row-major list of empty cells lying within
Chebyshev distance 2 of some occupied cell. -/
def nearEmpties (b : Board) : List (Int × Int) :=
  allCells.filter (fun m => (b m.1 m.2 == none) && decide (chebNear b m.1 m.2))

/-- Spec side: the tier of a candidate in the move ordering — 0 win,
1 block, 2 defensive, 3 rest (first matching tier wins). -/
def tierOf (b : Board) (mover : Color) (m : Int × Int) : Nat :=
  if try_move_is_win b m.1 m.2 mover then 0
  else if try_move_is_win b m.1 m.2 (oppOf mover) then 1
  else if is_open_threat b m.1 m.2 (oppOf mover) 3 then 2
  else 3

/-- Spec side: the contribution of the window of five starting at `i`
in `line`, per the scoring table — windows holding an opponent stone
contribute 0; otherwise the contribution is keyed by the number of own
stones and empties, with open ends read from the window-adjacent cells
of the line (out-of-line bounds count as not open). -/
def wContrib (color : Color) (line : List (Option Color)) (i : Nat) : Int :=
  let w := (line.drop i).take 5
  let mine := w.count (some color)
  let oppn := w.count (some (oppOf color))
  let emptyn := w.count none
  let leftOpen := decide (0 < i) && (line.get? (i - 1) == some none)
  let rightOpen := decide (i + 5 < line.length) && (line.get? (i + 5) == some none)
  if oppn ≠ 0 then 0
  else if mine = 5 then 100000
  else if mine = 4 ∧ emptyn = 1 then (if leftOpen || rightOpen then 10000 else 3000)
  else if mine = 3 ∧ emptyn = 2 then (if leftOpen && rightOpen then 1000 else 200)
  else if mine = 2 ∧ emptyn = 3 then (if leftOpen || rightOpen then 50 else 0)
  else 0

/-- Spec side: the score of one line is the sum of the contributions
of its windows of five consecutive cells. -/
def lineScoreSpec (color : Color) (line : List (Option Color)) : Int :=
  ((List.range (line.length - 4)).map (wContrib color line)).sum

/-- Spec side: the ↗ anti-diagonal of index `s`: cells `(r, s − r)`. -/
def antiDiagLine (b : Board) (s : Int) : List (Option Color) :=
  idx15.filterMap (fun r => if 0 ≤ s - r ∧ s - r < 15 then some (b r (s - r)) else none)

/-- Anti-diagonal indices `r + c = s` giving length ≥ 5. -/
def sRange : List Int := (List.range 21).map (fun n => (n : Int) + 4)

/-- Spec side: sum over all 15 rows, all 15 columns and every diagonal
of both families with length ≥ 5, of the line score. -/
def score_color_spec (b : Board) (color : Color) : Int :=
  (idx15.map (fun r => lineScoreSpec color (rowLine b r))).sum +
    (idx15.map (fun c => lineScoreSpec color (colLine b c))).sum +
    (dRange.map (fun d => lineScoreSpec color (diag1Line b d))).sum +
    (sRange.map (fun s => lineScoreSpec color (antiDiagLine b s))).sum

/-! ## Python list-of-lists model (for the bounds-checking behaviour)

`count_threat_level` is the one routine that indexes
`state[row][col]` without a bounds guard, so Python's list indexing
semantics — negative indices address from the end, indices beyond the
length raise `IndexError` — are observable there.  This model captures
them; `none` is the raised `IndexError`. -/

abbrev StateL := List (List (Option Color))

/-- Python list indexing: `l[i]` wraps negative indices once and
raises on anything else out of range. -/
def pyGet (l : List α) (i : Int) : Option α :=
  if 0 ≤ i ∧ i < l.length then l.get? i.toNat
  else if -(l.length : Int) ≤ i ∧ i < 0 then l.get? (l.length + i).toNat
  else none

/-- A well-formed 15×15 Python board. -/
def wfState (L : StateL) : Prop :=
  L.length = 15 ∧ ∀ row ∈ L, row.length = 15

instance (L : StateL) : Decidable (wfState L) := by
  unfold wfState; infer_instance

/-- The guarded read used by the scanning loops, on the list board:
the `0 <= r < 15 and 0 <= c < 15` check precedes the indexing. -/
def cellL (L : StateL) (r c : Int) : Option Color :=
  if inB r c then (((L.get? r.toNat).getD []).get? c.toNat).getD none else none

/-- Run length on the list board (the same while loop as `runLen`). -/
def runLenL (L : StateL) (r c dx dy : Int) (color : Color) : Nat :=
  ((List.range 15).takeWhile
    (fun k : Nat =>
      cellL L (r + ((k : Int) + 1) * dx) (c + ((k : Int) + 1) * dy) == some color)).length

/-- `count_threat_level` on the list board, with Python indexing for
the initial unguarded read `state[row][col]`; `none` is `IndexError`. -/
def count_threat_levelL (L : StateL) (row col : Int) (color : Color) : Option Nat := do
  let rowList ← pyGet L row
  let cell ← pyGet rowList col
  if cell.isSome then pure 0
  else pure ((directions.map (fun d =>
    1 + runLenL L row col d.1 d.2 color + runLenL L row col (-d.1) (-d.2) color)).foldl max 0)

/-! ## Concrete boards used as witnesses and counterexamples -/

/-- The empty board. -/
def bEmptyW : Board := fun _ _ => none

/-- A single black stone at the centre. -/
def bOneStone : Board := fun r c => if r = 7 ∧ c = 7 then some Color.black else none

/-- Four black stones at the top of column 0. -/
def bPhantom : Board := fun r c =>
  if c = 0 ∧ (r = 0 ∨ r = 1 ∨ r = 2 ∨ r = 3) then some Color.black else none

/-- Black stones at (7,5), (7,6), (7,8), (7,9): a five-in-a-row
pattern bridged by the empty centre cell. -/
def bBridge : Board := fun r c =>
  if r = 7 ∧ (c = 5 ∨ c = 6 ∨ c = 8 ∨ c = 9) then some Color.black else none

/-- The empty 15×15 Python board. -/
def stateL0 : StateL := List.replicate 15 (List.replicate 15 (none : Option Color))

/-- A checkerboard fill with the single cell (0,0) left empty. -/
def bNearFull : Board := fun r c =>
  if inB r c then
    (if r = 0 ∧ c = 0 then none
     else if (r + c) % 2 = 0 then some Color.black else some Color.white)
  else none

/-- A checkerboard fill with the two cells (0,0) and (0,1) left empty. -/
def bTwoEmpty : Board := fun r c =>
  if inB r c then
    (if (r = 0 ∧ c = 0) ∨ (r = 0 ∧ c = 1) then none
     else if (r + c) % 2 = 0 then some Color.black else some Color.white)
  else none

/-- A full checkerboard: no empty cell at all. -/
def bFull : Board := fun r c =>
  if inB r c then (if (r + c) % 2 = 0 then some Color.black else some Color.white)
  else none

/-! ## Basic lemmas -/

theorem idx15_eq : idx15 = [0, 1, 2, 3, 4, 5, 6, 7, 8, 9, 10, 11, 12, 13, 14] := by decide

theorem mem_idx15 {x : Int} : x ∈ idx15 ↔ 0 ≤ x ∧ x < 15 := by
  rw [idx15_eq]
  simp only [List.mem_cons, List.not_mem_nil, or_false]
  omega

theorem mem_allCells {m : Int × Int} :
    m ∈ allCells ↔ 0 ≤ m.1 ∧ m.1 < 15 ∧ 0 ≤ m.2 ∧ m.2 < 15 := by
  obtain ⟨r, c⟩ := m
  simp only [allCells, List.mem_flatMap, List.mem_map, Prod.mk.injEq]
  constructor
  · rintro ⟨r', hr', c', hc', rfl, rfl⟩
    have h1 := mem_idx15.mp hr'
    have h2 := mem_idx15.mp hc'
    exact ⟨h1.1, h1.2, h2.1, h2.2⟩
  · rintro ⟨h0, h1, h2, h3⟩
    exact ⟨r, mem_idx15.mpr ⟨h0, h1⟩, c, mem_idx15.mpr ⟨h2, h3⟩, rfl, rfl⟩

theorem mem_get_empty_cells {b : Board} {m : Int × Int} :
    m ∈ get_empty_cells b ↔ m ∈ allCells ∧ b m.1 m.2 = none := by
  simp only [get_empty_cells, List.mem_filter, beq_iff_eq]

/-- Every candidate move addresses an empty cell. -/
theorem candidate_moves_empty {b : Board} {m : Int × Int}
    (h : m ∈ candidate_moves b) : b m.1 m.2 = none := by
  unfold candidate_moves at h
  by_cases hs : allCells.any (fun m => (b m.1 m.2).isSome) = true
  · simp only [hs, if_true] at h
    by_cases hc : (get_empty_cells b).filter (fun m => neighbors_exist b m.1 m.2) = []
    · rw [if_pos hc] at h
      exact (mem_get_empty_cells.mp h).2
    · rw [if_neg hc] at h
      exact (mem_get_empty_cells.mp (List.mem_of_mem_filter h)).2
  · simp only [hs, Bool.false_eq_true, if_false, List.mem_singleton] at h
    subst h
    have := List.any_eq_false.mp (Bool.not_eq_true _ ▸ hs)
    have h77 := this (CENTER, CENTER) (mem_allCells.mpr (by norm_num [CENTER]))
    simpa using h77

theorem setCell_self (b : Board) (r c : Int) (v : Option Color) :
    setCell b r c v r c = v := by
  simp [setCell]

theorem setCell_ne (b : Board) (r c : Int) (v : Option Color) {r' c' : Int}
    (h : ¬(r' = r ∧ c' = c)) : setCell b r c v r' c' = b r' c' := by
  simp [setCell, h]

/-- Placing a stone on an empty cell and clearing the cell again
restores the original board. -/
theorem setCell_restore {b : Board} {r c : Int} (h : b r c = none) (v : Option Color) :
    setCell (setCell b r c v) r c none = b := by
  funext r' c'
  by_cases hrc : r' = r ∧ c' = c
  · obtain ⟨rfl, rfl⟩ := hrc
    simp [setCell, h]
  · simp [setCell, hrc]

theorem ordered_candidates_subset {b : Board} {ai : Color} {m : Int × Int}
    (h : m ∈ ordered_candidates b ai) : m ∈ candidate_moves b := by
  simp only [ordered_candidates, List.mem_append] at h
  rcases h with (((h | h) | h) | h) <;> exact List.mem_of_mem_filter h

theorem applyCap_subset {b : Board} {mover other : Color} {oc : List (Int × Int)}
    {maxc : Option Nat} {m : Int × Int}
    (h : m ∈ applyCap b mover other oc maxc) : m ∈ oc := by
  cases maxc with
  | none => exact h
  | some cap =>
      simp only [applyCap, List.mem_append] at h
      rcases h with ((h | h) | h) | h
      · exact List.mem_of_mem_filter h
      · exact List.mem_of_mem_filter h
      · exact List.mem_of_mem_filter h
      · exact List.mem_of_mem_filter (List.mem_of_mem_take h)

/-! ## The make/undo discipline (claim C1) -/

theorem maxLoop_board (rec : Board → Int → Int → Int × Board) (ai : Color) (useAb : Bool)
    (hrec : ∀ s a bt, (rec s a bt).2 = s) :
    ∀ (ms : List (Int × Int)) (value alpha beta : Int) (st : Board),
      (∀ m ∈ ms, st m.1 m.2 = none) →
      (maxLoop rec ai useAb ms value alpha beta st).2 = st
  | [], _, _, _, _, _ => rfl
  | (r, c) :: ms, value, alpha, beta, st, hm => by
      have hempty : st r c = none := hm (r, c) (List.mem_cons_self _ _)
      have hrest : ∀ m ∈ ms, st m.1 m.2 = none :=
        fun m hmem => hm m (List.mem_cons_of_mem _ hmem)
      simp only [maxLoop]
      generalize hres0 : (if is_win_at (setCell st r c (some ai)) r c ai
          then ((100000 : Int), setCell st r c (some ai))
          else rec (setCell st r c (some ai)) alpha beta) = res0
      have h2 : res0.2 = setCell st r c (some ai) := by
        rw [← hres0]; split
        · rfl
        · exact hrec _ _ _
      rw [h2, setCell_restore hempty]
      generalize (if res0.1 > value then res0.1 else value) = value'
      generalize (if value' > alpha then value' else alpha) = alpha'
      split
      · split
        · rfl
        · exact maxLoop_board rec ai useAb hrec ms _ _ _ st hrest
      · exact maxLoop_board rec ai useAb hrec ms _ _ _ st hrest

theorem minLoop_board (rec : Board → Int → Int → Int × Board) (opp : Color) (useAb : Bool)
    (hrec : ∀ s a bt, (rec s a bt).2 = s) :
    ∀ (ms : List (Int × Int)) (value alpha beta : Int) (st : Board),
      (∀ m ∈ ms, st m.1 m.2 = none) →
      (minLoop rec opp useAb ms value alpha beta st).2 = st
  | [], _, _, _, _, _ => rfl
  | (r, c) :: ms, value, alpha, beta, st, hm => by
      have hempty : st r c = none := hm (r, c) (List.mem_cons_self _ _)
      have hrest : ∀ m ∈ ms, st m.1 m.2 = none :=
        fun m hmem => hm m (List.mem_cons_of_mem _ hmem)
      simp only [minLoop]
      generalize hres0 : (if is_win_at (setCell st r c (some opp)) r c opp
          then ((-100000 : Int), setCell st r c (some opp))
          else rec (setCell st r c (some opp)) alpha beta) = res0
      have h2 : res0.2 = setCell st r c (some opp) := by
        rw [← hres0]; split
        · rfl
        · exact hrec _ _ _
      rw [h2, setCell_restore hempty]
      generalize (if res0.1 < value then res0.1 else value) = value'
      generalize (if value' < beta then value' else beta) = beta'
      split
      · split
        · rfl
        · exact minLoop_board rec opp useAb hrec ms _ _ _ st hrest
      · exact minLoop_board rec opp useAb hrec ms _ _ _ st hrest

theorem rootLoop_board (rec : Board → Int → Int → Int × Board) (ai : Color) (useAb : Bool)
    (hrec : ∀ s a bt, (rec s a bt).2 = s) :
    ∀ (ms : List (Int × Int)) (best : Option (Int × Int)) (bscore alpha beta : Int) (st : Board),
      (∀ m ∈ ms, st m.1 m.2 = none) →
      (rootLoop rec ai useAb ms best bscore alpha beta st).2.2 = st
  | [], _, _, _, _, _, _ => rfl
  | (r, c) :: ms, best, bscore, alpha, beta, st, hm => by
      have hempty : st r c = none := hm (r, c) (List.mem_cons_self _ _)
      have hrest : ∀ m ∈ ms, st m.1 m.2 = none :=
        fun m hmem => hm m (List.mem_cons_of_mem _ hmem)
      simp only [rootLoop]
      rw [hrec (setCell st r c (some ai)) alpha beta, setCell_restore hempty]
      generalize ((rec (setCell st r c (some ai)) alpha beta).1 : Int) = v
      generalize (if v > bscore then some (r, c) else best) = best'
      generalize (if v > bscore then v else bscore) = bscore'
      generalize (if bscore' > alpha then bscore' else alpha) = alpha'
      split
      · split
        · rfl
        · exact rootLoop_board rec ai useAb hrec ms _ _ _ _ st hrest
      · exact rootLoop_board rec ai useAb hrec ms _ _ _ _ st hrest

/-- Every move handed to a search loop addresses an empty cell. -/
theorem applyCap_ordered_empty {st : Board} {mover other : Color} {maxc : Option Nat}
    {m : Int × Int} (h : m ∈ applyCap st mover other (ordered_candidates st mover) maxc) :
    st m.1 m.2 = none :=
  candidate_moves_empty (ordered_candidates_subset (applyCap_subset h))

/-- `minimaxF` restores the board on every path, at every fuel. -/
theorem minimaxF_board :
    ∀ (fuel : Nat) (depth : Int) (st : Board) (maximizing : Bool) (ai opp : Color)
      (alpha beta : Int) (useAb : Bool) (maxc : Option Nat),
      (minimaxF fuel depth st maximizing ai opp alpha beta useAb maxc).2 = st
  | 0, _, _, _, _, _, _, _, _, _ => rfl
  | f + 1, depth, st, maximizing, ai, opp, alpha, beta, useAb, maxc => by
      simp only [minimaxF]
      split
      · rfl
      · split
        · exact maxLoop_board _ ai useAb
            (fun s a bt => minimaxF_board f (depth - 1) s false ai opp a bt useAb maxc)
            _ _ _ _ st (fun m hm => applyCap_ordered_empty hm)
        · exact minLoop_board _ opp useAb
            (fun s a bt => minimaxF_board f (depth - 1) s true ai opp a bt useAb maxc)
            _ _ _ _ st (fun m hm => applyCap_ordered_empty hm)

/-- `minimax` restores the board on every path. -/
theorem minimax_board (depth : Int) (st : Board) (maximizing : Bool) (ai opp : Color)
    (alpha beta : Int) (useAb : Bool) (maxc : Option Nat) :
    (minimax depth st maximizing ai opp alpha beta useAb maxc).2 = st :=
  minimaxF_board 226 depth st maximizing ai opp alpha beta useAb maxc

/-- `ai_search` restores the board on every path. -/
theorem ai_search_board (st : Board) (ai opp : Color) (depth : Int) (useAb : Bool)
    (maxc : Option Nat) : (ai_search st ai opp depth useAb maxc).2.2 = st := by
  simp only [ai_search]
  exact rootLoop_board _ ai useAb
    (fun s a bt => minimax_board (depth - 1) s false ai opp a bt useAb maxc)
    _ _ _ _ _ st (fun m hm => applyCap_ordered_empty hm)

/-- C1: a call to `minimax` or `ai_search` leaves the board in exactly
the state it had at entry — every stone placed during the search is
undone before the call returns, on every exit path (alpha-beta cutoff
breaks and immediate-win short-circuits included), so no cell's
content differs between entry and return.  `depth` ranges over all
integers — in particular the negative depths reached from
`ai_search(depth = 0)`, whose subtree search only stops when the board
fills — and the `minimaxF` conjunct covers every recursion bound. -/
theorem search_restores_board :
    (∀ (fuel : Nat) (depth : Int) (st : Board) (maximizing : Bool) (ai opp : Color)
        (alpha beta : Int) (useAb : Bool) (maxc : Option Nat) (r c : Int),
      (minimaxF fuel depth st maximizing ai opp alpha beta useAb maxc).2 r c = st r c) ∧
    (∀ (depth : Int) (st : Board) (maximizing : Bool) (ai opp : Color)
        (alpha beta : Int) (useAb : Bool) (maxc : Option Nat) (r c : Int),
      (minimax depth st maximizing ai opp alpha beta useAb maxc).2 r c = st r c) ∧
    (∀ (st : Board) (ai opp : Color) (depth : Int) (useAb : Bool) (maxc : Option Nat)
        (r c : Int),
      (ai_search st ai opp depth useAb maxc).2.2 r c = st r c) :=
  ⟨fun fuel depth st maximizing ai opp alpha beta useAb maxc r c => by
      rw [minimaxF_board fuel depth st maximizing ai opp alpha beta useAb maxc],
   fun depth st maximizing ai opp alpha beta useAb maxc r c => by
      rw [minimax_board depth st maximizing ai opp alpha beta useAb maxc],
   fun st ai opp depth useAb maxc r c => by
      rw [ai_search_board st ai opp depth useAb maxc]⟩

/-! ## The recursion bound of `minimaxF` is never reached

Every recursive call of the source's `minimax` happens after a stone
has been placed on an empty in-board cell, so the number of empty
cells strictly decreases along any recursion path.  Hence once `fuel`
exceeds the number of empty cells the `fuel = 0` fallback is
unreachable, and any two sufficient fuels give identical results:
`minimax` (fuel 226 > 225 cells) computes the source's recursion. -/

theorem allCells_nodup : allCells.Nodup := by
  have h15 : idx15.Nodup := by decide
  refine List.nodup_flatMap.2
    ⟨fun r _ => h15.map fun c c' h => (Prod.ext_iff.mp h).2, h15.imp ?_⟩
  intro r₁ r₂ hne x h₁ h₂
  rcases List.mem_map.1 h₁ with ⟨c₁, _, rfl⟩
  rcases List.mem_map.1 h₂ with ⟨c₂, _, h⟩
  exact hne (Prod.ext_iff.mp h).1.symm

/-- Filling an empty in-board cell removes exactly that cell from the
empty-cell list. -/
theorem length_get_empty_setCell {b : Board} {r c : Int} (hin : (r, c) ∈ allCells)
    (hempty : b r c = none) (v : Color) :
    (get_empty_cells (setCell b r c (some v))).length + 1 =
      (get_empty_cells b).length := by
  obtain ⟨l₁, l₂, hsplit⟩ := List.append_of_mem hin
  have hnd : (l₁ ++ (r, c) :: l₂).Nodup := by rw [← hsplit]; exact allCells_nodup
  rw [List.nodup_append] at hnd
  have hnotl₁ : (r, c) ∉ l₁ := fun hm => hnd.2.2 hm (List.mem_cons_self _ _)
  have hnotl₂ : (r, c) ∉ l₂ := (List.nodup_cons.mp hnd.2.1).1
  have hcongr : ∀ l : List (Int × Int), (r, c) ∉ l →
      l.filter (fun m => setCell b r c (some v) m.1 m.2 == none) =
        l.filter (fun m => b m.1 m.2 == none) := by
    intro l hl
    apply List.filter_congr
    intro m hm
    have hne : ¬(m.1 = r ∧ m.2 = c) := by
      intro hc
      exact hl ((Prod.ext_iff.mpr ⟨hc.1, hc.2⟩ : m = (r, c)) ▸ hm)
    rw [setCell_ne b r c (some v) hne]
  unfold get_empty_cells
  rw [hsplit, List.filter_append, List.filter_append]
  simp only [List.filter_cons]
  rw [hcongr l₁ hnotl₁, hcongr l₂ hnotl₂]
  simp only [setCell_self, hempty]
  simp [List.length_append]
  omega

/-- Every candidate move is one of the board's empty cells. -/
theorem candidate_moves_mem_empties {b : Board} {m : Int × Int}
    (h : m ∈ candidate_moves b) : m ∈ get_empty_cells b := by
  unfold candidate_moves at h
  by_cases hs : allCells.any (fun m => (b m.1 m.2).isSome) = true
  · simp only [hs, if_true] at h
    by_cases hc : (get_empty_cells b).filter (fun m => neighbors_exist b m.1 m.2) = []
    · rw [if_pos hc] at h
      exact h
    · rw [if_neg hc] at h
      exact List.mem_of_mem_filter h
  · simp only [hs, Bool.false_eq_true, if_false, List.mem_singleton] at h
    subst h
    have hnone := List.any_eq_false.mp (Bool.not_eq_true _ ▸ hs)
    have h77 := hnone (CENTER, CENTER) (mem_allCells.mpr (by norm_num [CENTER]))
    refine mem_get_empty_cells.mpr ⟨mem_allCells.mpr (by norm_num [CENTER]), ?_⟩
    simpa using h77

/-- Two recursive calls agreeing on every child board give the same
`maxLoop` run. -/
theorem maxLoop_congr (rec₁ rec₂ : Board → Int → Int → Int × Board) (ai : Color)
    (useAb : Bool) (hb : ∀ s a bt, (rec₁ s a bt).2 = s) :
    ∀ (ms : List (Int × Int)) (value alpha beta : Int) (st : Board),
      (∀ m ∈ ms, st m.1 m.2 = none) →
      (∀ m ∈ ms, ∀ a bt, rec₁ (setCell st m.1 m.2 (some ai)) a bt =
        rec₂ (setCell st m.1 m.2 (some ai)) a bt) →
      maxLoop rec₁ ai useAb ms value alpha beta st =
        maxLoop rec₂ ai useAb ms value alpha beta st
  | [], _, _, _, _, _, _ => rfl
  | (r, c) :: ms, value, alpha, beta, st, hm, ha => by
      have hempty : st r c = none := hm (r, c) (List.mem_cons_self _ _)
      have hrest : ∀ m ∈ ms, st m.1 m.2 = none :=
        fun m hmem => hm m (List.mem_cons_of_mem _ hmem)
      have harest : ∀ m ∈ ms, ∀ a bt, rec₁ (setCell st m.1 m.2 (some ai)) a bt =
          rec₂ (setCell st m.1 m.2 (some ai)) a bt :=
        fun m hmem => ha m (List.mem_cons_of_mem _ hmem)
      have hhead : ∀ a bt, rec₁ (setCell st r c (some ai)) a bt =
          rec₂ (setCell st r c (some ai)) a bt := ha (r, c) (List.mem_cons_self _ _)
      simp only [maxLoop]
      rw [hhead alpha beta]
      generalize hres : (if is_win_at (setCell st r c (some ai)) r c ai
          then ((100000 : Int), setCell st r c (some ai))
          else rec₂ (setCell st r c (some ai)) alpha beta) = res
      have h2 : res.2 = setCell st r c (some ai) := by
        rw [← hres]; split
        · rfl
        · rw [← hhead alpha beta]; exact hb _ _ _
      rw [h2, setCell_restore hempty]
      generalize (if res.1 > value then res.1 else value) = value'
      generalize (if value' > alpha then value' else alpha) = alpha'
      split
      · split
        · rfl
        · exact maxLoop_congr rec₁ rec₂ ai useAb hb ms value' alpha' beta st hrest harest
      · exact maxLoop_congr rec₁ rec₂ ai useAb hb ms value' alpha beta st hrest harest

/-- Two recursive calls agreeing on every child board give the same
`minLoop` run. -/
theorem minLoop_congr (rec₁ rec₂ : Board → Int → Int → Int × Board) (opp : Color)
    (useAb : Bool) (hb : ∀ s a bt, (rec₁ s a bt).2 = s) :
    ∀ (ms : List (Int × Int)) (value alpha beta : Int) (st : Board),
      (∀ m ∈ ms, st m.1 m.2 = none) →
      (∀ m ∈ ms, ∀ a bt, rec₁ (setCell st m.1 m.2 (some opp)) a bt =
        rec₂ (setCell st m.1 m.2 (some opp)) a bt) →
      minLoop rec₁ opp useAb ms value alpha beta st =
        minLoop rec₂ opp useAb ms value alpha beta st
  | [], _, _, _, _, _, _ => rfl
  | (r, c) :: ms, value, alpha, beta, st, hm, ha => by
      have hempty : st r c = none := hm (r, c) (List.mem_cons_self _ _)
      have hrest : ∀ m ∈ ms, st m.1 m.2 = none :=
        fun m hmem => hm m (List.mem_cons_of_mem _ hmem)
      have harest : ∀ m ∈ ms, ∀ a bt, rec₁ (setCell st m.1 m.2 (some opp)) a bt =
          rec₂ (setCell st m.1 m.2 (some opp)) a bt :=
        fun m hmem => ha m (List.mem_cons_of_mem _ hmem)
      have hhead : ∀ a bt, rec₁ (setCell st r c (some opp)) a bt =
          rec₂ (setCell st r c (some opp)) a bt := ha (r, c) (List.mem_cons_self _ _)
      simp only [minLoop]
      rw [hhead alpha beta]
      generalize hres : (if is_win_at (setCell st r c (some opp)) r c opp
          then ((-100000 : Int), setCell st r c (some opp))
          else rec₂ (setCell st r c (some opp)) alpha beta) = res
      have h2 : res.2 = setCell st r c (some opp) := by
        rw [← hres]; split
        · rfl
        · rw [← hhead alpha beta]; exact hb _ _ _
      rw [h2, setCell_restore hempty]
      generalize (if res.1 < value then res.1 else value) = value'
      generalize (if value' < beta then value' else beta) = beta'
      split
      · split
        · rfl
        · exact minLoop_congr rec₁ rec₂ opp useAb hb ms value' alpha beta' st hrest harest
      · exact minLoop_congr rec₁ rec₂ opp useAb hb ms value' alpha beta st hrest harest

/-- Any two sufficient recursion bounds compute the same `minimaxF`
result: the `fuel = 0` fallback is unreachable once `fuel` exceeds the
number of empty cells. -/
theorem minimaxF_fuel_irrel :
    ∀ (f g : Nat) (depth : Int) (st : Board) (maximizing : Bool) (ai opp : Color)
      (alpha beta : Int) (useAb : Bool) (maxc : Option Nat),
      (get_empty_cells st).length < f → (get_empty_cells st).length < g →
      minimaxF f depth st maximizing ai opp alpha beta useAb maxc =
        minimaxF g depth st maximizing ai opp alpha beta useAb maxc
  | 0, _, _, _, _, _, _, _, _, _, _, hf, _ => absurd hf (Nat.not_lt_zero _)
  | _ + 1, 0, _, _, _, _, _, _, _, _, _, _, hg => absurd hg (Nat.not_lt_zero _)
  | f + 1, g + 1, depth, st, maximizing, ai, opp, alpha, beta, useAb, maxc, hf, hg => by
      have hlen : ∀ m : Int × Int, m ∈ candidate_moves st → ∀ col : Color,
          (get_empty_cells (setCell st m.1 m.2 (some col))).length + 1 =
            (get_empty_cells st).length := by
        intro m hmem col
        have hme := candidate_moves_mem_empties hmem
        exact length_get_empty_setCell (mem_get_empty_cells.mp hme).1
          (mem_get_empty_cells.mp hme).2 col
      simp only [minimaxF]
      split
      · rfl
      · split
        · refine maxLoop_congr _ _ ai useAb
            (fun s a bt => minimaxF_board f (depth - 1) s false ai opp a bt useAb maxc)
            _ _ _ _ st (fun m hm => applyCap_ordered_empty hm) ?_
          intro m hm a bt
          have hmem : m ∈ candidate_moves st :=
            ordered_candidates_subset (applyCap_subset hm)
          have hl := hlen m hmem ai
          exact minimaxF_fuel_irrel f g (depth - 1) (setCell st m.1 m.2 (some ai)) false
            ai opp a bt useAb maxc (by omega) (by omega)
        · refine minLoop_congr _ _ opp useAb
            (fun s a bt => minimaxF_board f (depth - 1) s true ai opp a bt useAb maxc)
            _ _ _ _ st (fun m hm => applyCap_ordered_empty hm) ?_
          intro m hm a bt
          have hmem : m ∈ candidate_moves st :=
            ordered_candidates_subset (applyCap_subset hm)
          have hl := hlen m hmem opp
          exact minimaxF_fuel_irrel f g (depth - 1) (setCell st m.1 m.2 (some opp)) true
            ai opp a bt useAb maxc (by omega) (by omega)

theorem get_empty_cells_length_le (b : Board) : (get_empty_cells b).length ≤ 225 := by
  have h := List.length_filter_le (fun m => b m.1 m.2 == none) allCells
  have hlen : allCells.length = 225 := by decide
  unfold get_empty_cells
  omega

/-- The fuel supplied by `minimax` is sufficient: any recursion bound
exceeding the number of empty cells computes `minimax`. -/
theorem minimax_fuel_sufficient (f : Nat) (depth : Int) (st : Board) (maximizing : Bool)
    (ai opp : Color) (alpha beta : Int) (useAb : Bool) (maxc : Option Nat)
    (hf : (get_empty_cells st).length < f) :
    minimaxF f depth st maximizing ai opp alpha beta useAb maxc =
      minimax depth st maximizing ai opp alpha beta useAb maxc := by
  have h := get_empty_cells_length_le st
  exact minimaxF_fuel_irrel f 226 depth st maximizing ai opp alpha beta useAb maxc hf
    (by omega)

/-! ## Evaluation antisymmetry (claim C5) -/

/-- C5: `evaluate` is antisymmetric in the colour argument:
`evaluate(board, "black") = -evaluate(board, "white")` for every board. -/
theorem evaluate_antisymmetric (b : Board) :
    evaluate b Color.black = - evaluate b Color.white := by
  unfold evaluate oppOf
  ring

/-! ## Move-ordering tiers (claims C7, C2) -/

theorem tierOf_lt_four (b : Board) (mover : Color) (m : Int × Int) :
    tierOf b mover m < 4 := by
  unfold tierOf
  split
  · omega
  · split
    · omega
    · split <;> omega

theorem tier0_pt (b : Board) (mover : Color) (m : Int × Int) :
    (tierOf b mover m == 0) = try_move_is_win b m.1 m.2 mover := by
  unfold tierOf
  cases hA : try_move_is_win b m.1 m.2 mover <;>
    cases hB : try_move_is_win b m.1 m.2 (oppOf mover) <;>
      cases hC : is_open_threat b m.1 m.2 (oppOf mover) 3 <;>
        simp [hA, hB, hC]

theorem tier1_pt (b : Board) (mover : Color) (m : Int × Int) :
    (tierOf b mover m == 1) =
      (!try_move_is_win b m.1 m.2 mover && try_move_is_win b m.1 m.2 (oppOf mover)) := by
  unfold tierOf
  cases hA : try_move_is_win b m.1 m.2 mover <;>
    cases hB : try_move_is_win b m.1 m.2 (oppOf mover) <;>
      cases hC : is_open_threat b m.1 m.2 (oppOf mover) 3 <;>
        simp [hA, hB, hC]

theorem tier2_pt (b : Board) (mover : Color) (m : Int × Int) :
    (tierOf b mover m == 2) =
      (!try_move_is_win b m.1 m.2 mover && !try_move_is_win b m.1 m.2 (oppOf mover) &&
        is_open_threat b m.1 m.2 (oppOf mover) 3) := by
  unfold tierOf
  cases hA : try_move_is_win b m.1 m.2 mover <;>
    cases hB : try_move_is_win b m.1 m.2 (oppOf mover) <;>
      cases hC : is_open_threat b m.1 m.2 (oppOf mover) 3 <;>
        simp [hA, hB, hC]

theorem tier3_pt (b : Board) (mover : Color) (m : Int × Int) :
    (tierOf b mover m == 3) =
      (!try_move_is_win b m.1 m.2 mover && !try_move_is_win b m.1 m.2 (oppOf mover) &&
        !is_open_threat b m.1 m.2 (oppOf mover) 3) := by
  unfold tierOf
  cases hA : try_move_is_win b m.1 m.2 mover <;>
    cases hB : try_move_is_win b m.1 m.2 (oppOf mover) <;>
      cases hC : is_open_threat b m.1 m.2 (oppOf mover) 3 <;>
        simp [hA, hB, hC]

/-- `ordered_candidates` is the concatenation of the four tier filters
of the candidate list. -/
theorem ordered_candidates_eq_tiers (b : Board) (mover : Color) :
    ordered_candidates b mover =
      (candidate_moves b).filter (fun m => tierOf b mover m == 0) ++
      (candidate_moves b).filter (fun m => tierOf b mover m == 1) ++
      (candidate_moves b).filter (fun m => tierOf b mover m == 2) ++
      (candidate_moves b).filter (fun m => tierOf b mover m == 3) := by
  simp only [ordered_candidates]
  rw [List.filter_congr (fun m _ => (tier0_pt b mover m).symm),
      List.filter_congr (fun m _ => (tier1_pt b mover m).symm),
      List.filter_congr (fun m _ => (tier2_pt b mover m).symm),
      List.filter_congr (fun m _ => (tier3_pt b mover m).symm)]

/-- Concatenating the four tier filters of a list permutes the list,
provided every element falls in a tier. -/
theorem four_filter_perm {α : Type} (t : α → Nat) :
    ∀ l : List α, (∀ a ∈ l, t a < 4) →
      (l.filter (fun a => t a == 0) ++ (l.filter (fun a => t a == 1) ++
        (l.filter (fun a => t a == 2) ++ l.filter (fun a => t a == 3)))).Perm l
  | [], _ => by simp
  | a :: l, h => by
      have ht : t a < 4 := h a (List.mem_cons_self _ _)
      have hl : ∀ x ∈ l, t x < 4 := fun x hx => h x (List.mem_cons_of_mem _ hx)
      have IH := four_filter_perm t l hl
      have hcase : t a = 0 ∨ t a = 1 ∨ t a = 2 ∨ t a = 3 := by omega
      rcases hcase with h0 | h1 | h2 | h3
      · simp only [List.filter_cons, h0]
        norm_num
        exact IH
      · simp only [List.filter_cons, h1]
        norm_num
        exact List.perm_middle.trans (IH.cons a)
      · simp only [List.filter_cons, h2]
        norm_num
        exact ((List.Perm.append_left _ List.perm_middle).trans List.perm_middle).trans
          (IH.cons a)
      · simp only [List.filter_cons, h3]
        norm_num
        exact ((List.Perm.append_left _
            ((List.Perm.append_left _ List.perm_middle).trans List.perm_middle)).trans
          List.perm_middle).trans (IH.cons a)

/-- The tier filters of `ordered_candidates` agree with the tier
filters of `candidate_moves` (shared by several claims). -/
theorem oc_filter_tier (b : Board) (mover : Color) (t : Nat) :
    (ordered_candidates b mover).filter (fun m => tierOf b mover m == t) =
      (candidate_moves b).filter (fun m => tierOf b mover m == t) := by
  have hsame : ∀ (i : Nat) (m : Int × Int),
      ((tierOf b mover m == i) && (tierOf b mover m == i)) = (tierOf b mover m == i) := by
    intro i m; cases h : (tierOf b mover m == i) <;> simp [h]
  have hdiff : ∀ (i j : Nat), i ≠ j → ∀ (m : Int × Int),
      ((tierOf b mover m == i) && (tierOf b mover m == j)) = false := by
    intro i j hij m
    by_cases h : tierOf b mover m = i
    · have hj : (tierOf b mover m == j) = false := by simp [h, hij]
      simp [hj]
    · have hi : (tierOf b mover m == i) = false := by simp [h]
      simp [hi]
  by_cases ht : t < 4
  · rw [ordered_candidates_eq_tiers]
    simp only [List.filter_append, List.filter_filter]
    interval_cases t
    · rw [List.filter_congr (fun m _ => hsame 0 m),
          List.filter_congr (fun m _ => hdiff 0 1 (by omega) m),
          List.filter_congr (fun m _ => hdiff 0 2 (by omega) m),
          List.filter_congr (fun m _ => hdiff 0 3 (by omega) m)]
      simp
    · rw [List.filter_congr (fun m _ => hdiff 1 0 (by omega) m),
          List.filter_congr (fun m _ => hsame 1 m),
          List.filter_congr (fun m _ => hdiff 1 2 (by omega) m),
          List.filter_congr (fun m _ => hdiff 1 3 (by omega) m)]
      simp
    · rw [List.filter_congr (fun m _ => hdiff 2 0 (by omega) m),
          List.filter_congr (fun m _ => hdiff 2 1 (by omega) m),
          List.filter_congr (fun m _ => hsame 2 m),
          List.filter_congr (fun m _ => hdiff 2 3 (by omega) m)]
      simp
    · rw [List.filter_congr (fun m _ => hdiff 3 0 (by omega) m),
          List.filter_congr (fun m _ => hdiff 3 1 (by omega) m),
          List.filter_congr (fun m _ => hdiff 3 2 (by omega) m),
          List.filter_congr (fun m _ => hsame 3 m)]
      simp
  · have hfalse : ∀ m : Int × Int, (tierOf b mover m == t) = false := by
      intro m
      have h4 := tierOf_lt_four b mover m
      simp only [beq_eq_false_iff_ne, ne_eq]
      omega
    rw [List.filter_congr (fun m _ => hfalse m),
        List.filter_congr (fun m _ => hfalse m)]
    simp

/-- C7: `ordered_candidates` returns exactly the moves of
`candidate_moves`, partitioned into win/block/defensive/rest tiers and
concatenated in strict priority order; inside each tier the generation
order of `candidate_moves` is kept, and no rest move ever precedes a
win, block or defensive move (tiers are monotone along the list). -/
theorem ordered_candidates_priority (b : Board) (mover : Color) :
    (ordered_candidates b mover).Perm (candidate_moves b) ∧
    (∀ t : Nat,
      (ordered_candidates b mover).filter (fun m => tierOf b mover m == t) =
        (candidate_moves b).filter (fun m => tierOf b mover m == t)) ∧
    List.Pairwise (fun m m' => tierOf b mover m ≤ tierOf b mover m')
      (ordered_candidates b mover) := by
  have hmemT : ∀ (i : Nat) (m : Int × Int),
      m ∈ (candidate_moves b).filter (fun m => tierOf b mover m == i) →
        tierOf b mover m = i := by
    intro i m hm
    simpa using (List.mem_filter.mp hm).2
  refine ⟨?_, ?_, ?_⟩
  · rw [ordered_candidates_eq_tiers]
    have h := four_filter_perm (tierOf b mover) (candidate_moves b)
      (fun a _ => tierOf_lt_four b mover a)
    simpa [List.append_assoc] using h
  · intro t
    exact oc_filter_tier b mover t
  · rw [ordered_candidates_eq_tiers]
    refine List.pairwise_append.mpr
      ⟨List.pairwise_append.mpr ⟨List.pairwise_append.mpr ⟨?_, ?_, ?_⟩, ?_, ?_⟩, ?_, ?_⟩
    · exact List.pairwise_of_forall_mem_list
        (fun x hx y hy => by rw [hmemT 0 x hx, hmemT 0 y hy])
    · exact List.pairwise_of_forall_mem_list
        (fun x hx y hy => by rw [hmemT 1 x hx, hmemT 1 y hy])
    · intro x hx y hy
      rw [hmemT 0 x hx, hmemT 1 y hy]
      omega
    · exact List.pairwise_of_forall_mem_list
        (fun x hx y hy => by rw [hmemT 2 x hx, hmemT 2 y hy])
    · intro x hx y hy
      rw [hmemT 2 y hy]
      rcases List.mem_append.mp hx with h | h
      · rw [hmemT 0 x h]; omega
      · rw [hmemT 1 x h]; omega
    · exact List.pairwise_of_forall_mem_list
        (fun x hx y hy => by rw [hmemT 3 x hx, hmemT 3 y hy])
    · intro x hx y hy
      rw [hmemT 3 y hy]
      rcases List.mem_append.mp hx with h | h
      · rcases List.mem_append.mp h with h2 | h2
        · rw [hmemT 0 x h2]; omega
        · rw [hmemT 1 x h2]; omega
      · rw [hmemT 2 x h]; omega

/-- C2: with a cap, the candidate list used by `ai_search` and at each
`minimax` node keeps every win, block and defensive move of the
uncapped ordered list, in tier order; only the rest tier is truncated,
to its first `max(0, cap − |wins| − |blocks| − |defensive|)` moves in
original order. -/
theorem applyCap_keeps_forcing (b : Board) (mover : Color) (cap : Nat) :
    applyCap b mover (oppOf mover) (ordered_candidates b mover) (some cap) =
      (candidate_moves b).filter (fun m => tierOf b mover m == 0) ++
      (candidate_moves b).filter (fun m => tierOf b mover m == 1) ++
      (candidate_moves b).filter (fun m => tierOf b mover m == 2) ++
      ((candidate_moves b).filter (fun m => tierOf b mover m == 3)).take
        (cap - (((candidate_moves b).filter (fun m => tierOf b mover m == 0)).length +
                ((candidate_moves b).filter (fun m => tierOf b mover m == 1)).length +
                ((candidate_moves b).filter (fun m => tierOf b mover m == 2)).length)) := by
  have hcont : ∀ (t : Nat) (m : Int × Int), m ∈ candidate_moves b →
      ((candidate_moves b).filter (fun m => tierOf b mover m == t)).contains m =
        (tierOf b mover m == t) := by
    intro t m hmc
    by_cases ht : tierOf b mover m = t
    · simp [List.mem_filter, hmc, ht]
    · simp [List.mem_filter, ht]
  simp only [applyCap]
  have h0 : (ordered_candidates b mover).filter (fun m => try_move_is_win b m.1 m.2 mover) =
      (candidate_moves b).filter (fun m => tierOf b mover m == 0) := by
    rw [List.filter_congr (fun m _ => (tier0_pt b mover m).symm)]
    exact oc_filter_tier b mover 0
  rw [h0]
  have h1 : (ordered_candidates b mover).filter (fun m =>
      !((candidate_moves b).filter (fun m => tierOf b mover m == 0)).contains m &&
        try_move_is_win b m.1 m.2 (oppOf mover)) =
      (candidate_moves b).filter (fun m => tierOf b mover m == 1) := by
    have hpt : ∀ m ∈ ordered_candidates b mover,
        (!((candidate_moves b).filter (fun m => tierOf b mover m == 0)).contains m &&
          try_move_is_win b m.1 m.2 (oppOf mover)) = (tierOf b mover m == 1) := by
      intro m hm
      rw [hcont 0 m (ordered_candidates_subset hm), tier0_pt, tier1_pt]
    rw [List.filter_congr hpt]
    exact oc_filter_tier b mover 1
  rw [h1]
  have h2 : (ordered_candidates b mover).filter (fun m =>
      !((candidate_moves b).filter (fun m => tierOf b mover m == 0)).contains m &&
      !((candidate_moves b).filter (fun m => tierOf b mover m == 1)).contains m &&
        is_open_threat b m.1 m.2 (oppOf mover) 3) =
      (candidate_moves b).filter (fun m => tierOf b mover m == 2) := by
    have hpt : ∀ m ∈ ordered_candidates b mover,
        (!((candidate_moves b).filter (fun m => tierOf b mover m == 0)).contains m &&
         !((candidate_moves b).filter (fun m => tierOf b mover m == 1)).contains m &&
           is_open_threat b m.1 m.2 (oppOf mover) 3) = (tierOf b mover m == 2) := by
      intro m hm
      rw [hcont 0 m (ordered_candidates_subset hm), hcont 1 m (ordered_candidates_subset hm),
        tier0_pt, tier1_pt, tier2_pt]
      cases try_move_is_win b m.1 m.2 mover <;>
        cases try_move_is_win b m.1 m.2 (oppOf mover) <;>
          cases is_open_threat b m.1 m.2 (oppOf mover) 3 <;> rfl
    rw [List.filter_congr hpt]
    exact oc_filter_tier b mover 2
  rw [h2]
  have h3 : (ordered_candidates b mover).filter (fun m =>
      !((candidate_moves b).filter (fun m => tierOf b mover m == 0)).contains m &&
      !((candidate_moves b).filter (fun m => tierOf b mover m == 1)).contains m &&
      !((candidate_moves b).filter (fun m => tierOf b mover m == 2)).contains m) =
      (candidate_moves b).filter (fun m => tierOf b mover m == 3) := by
    have hpt : ∀ m ∈ ordered_candidates b mover,
        (!((candidate_moves b).filter (fun m => tierOf b mover m == 0)).contains m &&
         !((candidate_moves b).filter (fun m => tierOf b mover m == 1)).contains m &&
         !((candidate_moves b).filter (fun m => tierOf b mover m == 2)).contains m) =
          (tierOf b mover m == 3) := by
      intro m hm
      rw [hcont 0 m (ordered_candidates_subset hm), hcont 1 m (ordered_candidates_subset hm),
        hcont 2 m (ordered_candidates_subset hm), tier0_pt, tier1_pt, tier2_pt, tier3_pt]
      cases try_move_is_win b m.1 m.2 mover <;>
        cases try_move_is_win b m.1 m.2 (oppOf mover) <;>
          cases is_open_threat b m.1 m.2 (oppOf mover) 3 <;> rfl
    rw [List.filter_congr hpt]
    exact oc_filter_tier b mover 3
  rw [h3]

/-! ## Candidate generation (claim C8) -/

theorem mem_offs {x : Int} : x ∈ offs ↔ -2 ≤ x ∧ x ≤ 2 := by
  simp only [offs, List.mem_cons, List.not_mem_nil, or_false]
  omega

theorem inB_eq_true {r c : Int} : inB r c = true ↔ 0 ≤ r ∧ r < 15 ∧ 0 ≤ c ∧ c < 15 := by
  simp only [inB, Bool.and_eq_true, decide_eq_true_eq]
  omega

/-- On an empty cell, the source's 5×5 neighbourhood scan agrees with
the spec's "some occupied cell within Chebyshev distance 2". -/
theorem neighbors_exist_iff {b : Board} {r c : Int} (hempty : b r c = none) :
    neighbors_exist b r c = true ↔ chebNear b r c := by
  unfold neighbors_exist
  rw [List.any_eq_true]
  constructor
  · rintro ⟨dr, hdr, hinner⟩
    rw [List.any_eq_true] at hinner
    obtain ⟨dc, hdc, hp⟩ := hinner
    simp only [Bool.and_eq_true] at hp
    obtain ⟨⟨_, hib⟩, hocc⟩ := hp
    obtain ⟨h1, h2, h3, h4⟩ := inB_eq_true.mp hib
    obtain ⟨hdr1, hdr2⟩ := mem_offs.mp hdr
    obtain ⟨hdc1, hdc2⟩ := mem_offs.mp hdc
    refine ⟨(⟨(r + dr).toNat, by omega⟩, ⟨(c + dc).toNat, by omega⟩), ?_, ?_, ?_⟩
    · have er : (((r + dr).toNat : Nat) : Int) = r + dr := by omega
      have ec : (((c + dc).toNat : Nat) : Int) = c + dc := by omega
      simpa [er, ec] using hocc
    · simp only []
      omega
    · simp only []
      omega
  · rintro ⟨⟨pr, pc⟩, hocc, h1, h2⟩
    have hb1 : (0 : Int) ≤ (pr : Int) := by positivity
    have hb2 : ((pr : Int)) < 15 := by exact_mod_cast pr.isLt
    have hb3 : (0 : Int) ≤ (pc : Int) := by positivity
    have hb4 : ((pc : Int)) < 15 := by exact_mod_cast pc.isLt
    have hd1 : -2 ≤ (pr : Int) - r ∧ (pr : Int) - r ≤ 2 := by
      simp only [] at h1
      omega
    have hd2 : -2 ≤ (pc : Int) - c ∧ (pc : Int) - c ≤ 2 := by
      simp only [] at h2
      omega
    refine ⟨(pr : Int) - r, mem_offs.mpr hd1, ?_⟩
    rw [List.any_eq_true]
    refine ⟨(pc : Int) - c, mem_offs.mpr hd2, ?_⟩
    have hr : r + ((pr : Int) - r) = (pr : Int) := by ring
    have hc' : c + ((pc : Int) - c) = (pc : Int) := by ring
    rw [hr, hc']
    have hnz : ¬((pr : Int) - r = 0 ∧ (pc : Int) - c = 0) := by
      rintro ⟨e1, e2⟩
      have er : (pr : Int) = r := by omega
      have ec : (pc : Int) = c := by omega
      rw [er, ec, hempty] at hocc
      simp at hocc
    simp only [Bool.and_eq_true, Bool.not_eq_true']
    refine ⟨⟨?_, inB_eq_true.mpr ⟨hb1, hb2, hb3, hb4⟩⟩, hocc⟩
    rcases Decidable.em ((pr : Int) - r = 0) with he | he
    · have : ¬((pc : Int) - c = 0) := fun h => hnz ⟨he, h⟩
      simp [he, this]
    · simp [he]

/-- C8: `candidate_moves` on a stoneless board is exactly `[(7,7)]`;
with at least one stone it is exactly the row-major list of empty
cells within Chebyshev distance 2 of an occupied cell, falling back to
all empty cells when that list is empty; and it never contains an
occupied cell. -/
theorem candidate_moves_spec :
    (∀ b : Board, (∀ r c : Int, 0 ≤ r → r < 15 → 0 ≤ c → c < 15 → b r c = none) →
      candidate_moves b = [(7, 7)]) ∧
    (∀ b : Board,
      (∃ r c : Int, 0 ≤ r ∧ r < 15 ∧ 0 ≤ c ∧ c < 15 ∧ (b r c).isSome = true) →
      candidate_moves b =
        if nearEmpties b = [] then get_empty_cells b else nearEmpties b) ∧
    (∀ (b : Board) (m : Int × Int), m ∈ candidate_moves b → b m.1 m.2 = none) := by
  refine ⟨?_, ?_, ?_⟩
  · intro b h
    have hs : allCells.any (fun m => (b m.1 m.2).isSome) = false := by
      rw [List.any_eq_false]
      intro m hm
      obtain ⟨a1, a2, a3, a4⟩ := mem_allCells.mp hm
      simp [h m.1 m.2 a1 a2 a3 a4]
    simp only [candidate_moves, hs, Bool.false_eq_true, if_false]
    norm_num [CENTER]
  · intro b ⟨r, c, h0, h1, h2, h3, hsome⟩
    have hs : allCells.any (fun m => (b m.1 m.2).isSome) = true :=
      List.any_eq_true.mpr ⟨(r, c), mem_allCells.mpr ⟨h0, h1, h2, h3⟩, hsome⟩
    have hfeq : (get_empty_cells b).filter (fun m => neighbors_exist b m.1 m.2) =
        nearEmpties b := by
      unfold get_empty_cells nearEmpties
      rw [List.filter_filter]
      apply List.filter_congr
      intro m _
      cases hq : (b m.1 m.2 == none) with
      | false => simp
      | true =>
          have hmne : b m.1 m.2 = none := by simpa using hq
          have hne : neighbors_exist b m.1 m.2 = decide (chebNear b m.1 m.2) := by
            by_cases hch : chebNear b m.1 m.2
            · simp [hch, (neighbors_exist_iff hmne).mpr hch]
            · have hnot : ¬(neighbors_exist b m.1 m.2 = true) :=
                fun hh => hch ((neighbors_exist_iff hmne).mp hh)
              have hfalse : neighbors_exist b m.1 m.2 = false :=
                Bool.eq_false_iff.mpr hnot
              simp [hch, hfalse]
          simp [hne]
    simp only [candidate_moves, hs, if_true]
    rw [hfeq]
  · intro b m hm
    exact candidate_moves_empty hm

/-- Witness for C8 at two concrete boards: the empty board yields
exactly the centre; a board with one stone yields the spec's list. -/
theorem candidate_moves_spec_witness :
    candidate_moves bEmptyW = [(7, 7)] ∧
    candidate_moves bOneStone =
      (if nearEmpties bOneStone = [] then get_empty_cells bOneStone
       else nearEmpties bOneStone) :=
  ⟨candidate_moves_spec.1 bEmptyW (fun _ _ _ _ _ _ => rfl),
   candidate_moves_spec.2.1 bOneStone ⟨7, 7, by norm_num, by norm_num, by norm_num,
     by norm_num, by simp [bOneStone]⟩⟩

/-! ## `is_win_at` never reads the queried cell (claim C10) -/

/-- `List.any` only depends on the predicate's values on the list. -/
theorem any_congr {α : Type} {p q : α → Bool} :
    ∀ {l : List α}, (∀ a ∈ l, p a = q a) → l.any p = l.any q
  | [], _ => rfl
  | a :: l, h => by
      simp only [List.any_cons]
      rw [h a (List.mem_cons_self _ _), any_congr (fun x hx => h x (List.mem_cons_of_mem _ hx))]

/-- The scanning loop never reads the cell it starts from, so two
boards agreeing away from `(row, col)` give the same run lengths. -/
theorem runLen_congr {b b' : Board} {row col : Int}
    (h : ∀ r c : Int, ¬(r = row ∧ c = col) → b r c = b' r c)
    (dx dy : Int) (hd : ¬(dx = 0 ∧ dy = 0)) (color : Color) :
    runLen b row col dx dy color = runLen b' row col dx dy color := by
  unfold runLen
  have hfun : (fun k : Nat => cellEq b (row + ((k : Int) + 1) * dx) (col + ((k : Int) + 1) * dy) color)
      = (fun k : Nat => cellEq b' (row + ((k : Int) + 1) * dx) (col + ((k : Int) + 1) * dy) color) := by
    funext k
    unfold cellEq
    have hne : ¬(row + ((k : Int) + 1) * dx = row ∧ col + ((k : Int) + 1) * dy = col) := by
      rintro ⟨e1, e2⟩
      have hk : ((k : Int) + 1) ≠ 0 := by omega
      have hdx : dx = 0 := by
        rcases mul_eq_zero.mp (show ((k : Int) + 1) * dx = 0 by omega) with h' | h'
        · exact absurd h' hk
        · exact h'
      have hdy : dy = 0 := by
        rcases mul_eq_zero.mp (show ((k : Int) + 1) * dy = 0 by omega) with h' | h'
        · exact absurd h' hk
        · exact h'
      exact hd ⟨hdx, hdy⟩
    rw [h _ _ hne]
  rw [hfun]

/-- C10: `is_win_at` never reads the queried cell: any two boards that
agree everywhere except `(row, col)` give the same answer at
`(row, col)` — it counts outward assuming the cell holds `color`, so
it can even return `true` when the cell is actually empty. -/
theorem is_win_at_center_independent :
    (∀ (b b' : Board) (row col : Int) (color : Color),
      (∀ r c : Int, ¬(r = row ∧ c = col) → b r c = b' r c) →
      is_win_at b row col color = is_win_at b' row col color) ∧
    (is_win_at bBridge 7 7 Color.black = true ∧ bBridge 7 7 = none) := by
  constructor
  · intro b b' row col color h
    unfold is_win_at
    apply any_congr
    intro d hd
    have hd1 : ¬(d.1 = 0 ∧ d.2 = 0) := by
      fin_cases hd <;> norm_num
    have hd2 : ¬(-d.1 = 0 ∧ -d.2 = 0) := by
      rintro ⟨e1, e2⟩
      exact hd1 ⟨by omega, by omega⟩
    rw [runLen_congr h d.1 d.2 hd1 color, runLen_congr h (-d.1) (-d.2) hd2 color]
  · exact ⟨by decide, by decide⟩

/-- Witness for C10: the empty board and the board with one stone at
(7,7) agree away from (7,7); `is_win_at` agrees at (7,7). -/
theorem is_win_at_center_independent_witness :
    is_win_at bEmptyW 7 7 Color.black = is_win_at bOneStone 7 7 Color.black :=
  is_win_at_center_independent.1 bEmptyW bOneStone 7 7 Color.black
    (fun r c hne => by
      simp only [bEmptyW, bOneStone]
      rw [if_neg hne])

/-! ## Out-of-range coordinates (claim C9) -/

/-- C9 counterexample: an out-of-range query does not fail fast — both
`is_win_at` (all its reads are bounds-guarded, so the phantom
out-of-board stone is simply assumed) and `count_threat_level` (whose
unguarded `state[row][col]` read silently wraps a negative Python
index) return perfectly normal results at row −1; `is_win_at` even
reports a win for a cell that is not on the board. -/
theorem out_of_range_returns_normally :
    is_win_at bPhantom (-1) 0 Color.black = true ∧
    (count_threat_levelL stateL0 (-1) 0 Color.black).isSome = true := by
  constructor
  · decide
  · decide

/-- C9 amended: neither routine performs an explicit bounds check.
`is_win_at` only ever reads through the in-board guard, so any
out-of-range query returns a normal boolean (which can even be `true`,
counting the phantom stone).  `count_threat_level` reads
`state[row][col]` unguarded, so with Python list semantics a row index
≥ 15 raises `IndexError` (modelled as `none`) while a negative row
index in [−15, 0) silently wraps and returns a normal count. -/
theorem out_of_range_amended :
    (∀ (L : StateL) (color : Color) (r : Int), wfState L →
      (15 ≤ r → count_threat_levelL L r 0 color = none) ∧
      (-15 ≤ r → r < 0 → (count_threat_levelL L r 0 color).isSome = true)) ∧
    is_win_at bPhantom (-1) 0 Color.black = true := by
  constructor
  · intro L color r hwf
    obtain ⟨hlen, hrows⟩ := hwf
    constructor
    · intro h15
      unfold count_threat_levelL
      have hget : pyGet L r = none := by
        unfold pyGet
        rw [hlen]
        rw [if_neg (by omega), if_neg (by omega)]
      rw [hget]
      rfl
    · intro hn15 hneg
      have hidx : ((L.length : Int) + r).toNat < L.length := by
        rw [hlen]
        omega
      have hsome : (L.get? ((L.length : Int) + r).toNat).isSome = true := by
        rw [Option.isSome_iff_ne_none]
        intro hnone
        rw [List.get?_eq_none] at hnone
        omega
      obtain ⟨row, hrow⟩ := Option.isSome_iff_exists.mp hsome
      have hget : pyGet L r = some row := by
        unfold pyGet
        rw [hlen] at hrow ⊢
        rw [if_neg (by omega), if_pos (by omega)]
        exact hrow
      have hrowmem : row ∈ L := List.get?_mem hrow
      have hrowlen : row.length = 15 := hrows row hrowmem
      have hget2 : pyGet row 0 = row.get? 0 := by
        unfold pyGet
        rw [if_pos (by rw [hrowlen]; norm_num)]
        rfl
      have hsome2 : (row.get? 0).isSome = true := by
        rw [Option.isSome_iff_ne_none]
        intro hnone
        rw [List.get?_eq_none] at hnone
        omega
      obtain ⟨cell, hcell⟩ := Option.isSome_iff_exists.mp hsome2
      have hcell2 : row[0]? = some cell := by
        rw [← List.get?_eq_getElem?]
        exact hcell
      cases hc : cell.isSome <;>
        simp [count_threat_levelL, hget, hget2, hcell, hcell2, hc]
  · decide

/-- Witness for the amended C9 at the concrete empty Python board. -/
theorem out_of_range_amended_witness :
    count_threat_levelL stateL0 15 0 Color.black = none ∧
    (count_threat_levelL stateL0 (-1) 0 Color.black).isSome = true :=
  ⟨(out_of_range_amended.1 stateL0 Color.black 15 (by decide)).1 (by norm_num),
   (out_of_range_amended.1 stateL0 Color.black (-1) (by decide)).2 (by norm_num) (by norm_num)⟩

/-! ## The evaluator's window table (claim C6) -/

theorem stone_one (color : Color) (v : Option Color) :
    ((stoneVal color v) == 1) = (v == some color) := by
  cases v with
  | none => cases color <;> rfl
  | some c => cases c <;> cases color <;> rfl

theorem stone_neg (color : Color) (v : Option Color) :
    ((stoneVal color v) == -1) = (v == some (oppOf color)) := by
  cases v with
  | none => cases color <;> rfl
  | some c => cases c <;> cases color <;> rfl

theorem stone_zero (color : Color) (v : Option Color) :
    ((stoneVal color v) == 0) = (v == none) := by
  cases v with
  | none => cases color <;> rfl
  | some c => cases c <;> cases color <;> rfl

theorem count_map_one (color : Color) :
    ∀ w : List (Option Color), (w.map (stoneVal color)).count 1 = w.count (some color)
  | [] => rfl
  | v :: w => by
      rw [List.map_cons, List.count_cons, List.count_cons, count_map_one color w, stone_one]

theorem count_map_neg (color : Color) :
    ∀ w : List (Option Color),
      (w.map (stoneVal color)).count (-1) = w.count (some (oppOf color))
  | [] => rfl
  | v :: w => by
      rw [List.map_cons, List.count_cons, List.count_cons, count_map_neg color w, stone_neg]

theorem count_map_zero (color : Color) :
    ∀ w : List (Option Color), (w.map (stoneVal color)).count 0 = w.count none
  | [] => rfl
  | v :: w => by
      rw [List.map_cons, List.count_cons, List.count_cons, count_map_zero color w, stone_zero]

/-- The source's window contribution (computed through the ±1/0 stone
encoding) equals the spec's table contribution. -/
theorem windowRaw_eq_wContrib (color : Color) (seq : List (Option Color)) (i : Nat) :
    windowRaw seq (seq.map (stoneVal color)) i = wContrib color seq i := by
  simp only [windowRaw, wContrib]
  rw [← List.map_drop, ← List.map_take, count_map_one, count_map_neg, count_map_zero]
  by_cases h : ((seq.drop i).take 5).count (some (oppOf color)) = 0 <;> simp [h]

theorem seq_score_eq (color : Color) (seq : List (Option Color)) :
    seq_score color seq = lineScoreSpec color seq := by
  simp only [seq_score, lineScoreSpec]
  congr 1
  exact List.map_congr_left (fun i _ => windowRaw_eq_wContrib color seq i)

theorem length_filterMap_if {α β : Type} (p : α → Prop) [DecidablePred p] (f : α → β) :
    ∀ l : List α, (l.filterMap (fun a => if p a then some (f a) else none)).length =
      (l.filter (fun a => decide (p a))).length
  | [] => rfl
  | a :: l => by
      by_cases h : p a <;>
        simp [List.filterMap_cons, List.filter_cons, h, length_filterMap_if p f l]

theorem diag1_len (b : Board) : ∀ d ∈ dRange, 5 ≤ (diag1Line b d).length := by
  have h : ∀ d ∈ dRange,
      5 ≤ (idx15.filter (fun r => decide (0 ≤ r + d ∧ r + d < 15))).length := by decide
  intro d hd
  unfold diag1Line
  rw [length_filterMap_if]
  exact h d hd

theorem diag2_len (b : Board) : ∀ d ∈ dRange, 5 ≤ (diag2Line b d).length := by
  have h : ∀ d ∈ dRange,
      5 ≤ (idx15.filter (fun r => decide (0 ≤ 14 - r - d ∧ 14 - r - d < 15))).length := by
    decide
  intro d hd
  unfold diag2Line
  rw [length_filterMap_if]
  exact h d hd

theorem sum_map_add {α : Type} (f g : α → Int) :
    ∀ l : List α, (l.map (fun x => f x + g x)).sum = (l.map f).sum + (l.map g).sum
  | [] => by simp
  | a :: l => by
      simp only [List.map_cons, List.sum_cons, sum_map_add f g l]
      ring

theorem flatMap_congr {α β : Type} {g g' : α → List β} :
    ∀ {l : List α}, (∀ a ∈ l, g a = g' a) → l.flatMap g = l.flatMap g'
  | [], _ => rfl
  | a :: l, h => by
      simp only [List.flatMap_cons]
      rw [h a (List.mem_cons_self _ _),
        flatMap_congr (fun x hx => h x (List.mem_cons_of_mem _ hx))]

theorem sum_map_flatMap {α β : Type} (g : α → List β) (h : β → Int) :
    ∀ l : List α, ((l.flatMap g).map h).sum = (l.map (fun a => ((g a).map h).sum)).sum
  | [] => rfl
  | a :: l => by
      simp only [List.flatMap_cons, List.map_append, List.sum_append, List.map_cons,
        List.sum_cons]
      rw [sum_map_flatMap g h l]

theorem diag2_eq_antiDiag (b : Board) (d : Int) :
    diag2Line b d = antiDiagLine b (14 - d) := by
  unfold diag2Line antiDiagLine
  congr 1
  funext r
  have e : 14 - d - r = 14 - r - d := by ring
  rw [e]

/-- C6: `score_color` is exactly the spec's sum — over all 15 rows,
15 columns and every diagonal of both families of length ≥ 5, and
every window of five consecutive cells, of the table contribution
(opponent-free windows only, scored by own/empty counts with the
window-adjacent open-end conditions; out-of-line bounds not open). -/
theorem score_color_eq_table (b : Board) (color : Color) :
    score_color b color = score_color_spec b color := by
  have hg : ∀ d ∈ dRange,
      ((if 5 ≤ (diag1Line b d).length then [diag1Line b d] else []) ++
       (if 5 ≤ (diag2Line b d).length then [diag2Line b d] else [])) =
      [diag1Line b d, diag2Line b d] := by
    intro d hd
    rw [if_pos (diag1_len b d hd), if_pos (diag2_len b d hd)]
    rfl
  unfold score_color allLines
  rw [List.map_append, List.map_append, List.sum_append, List.sum_append]
  rw [flatMap_congr hg, sum_map_flatMap]
  have hrow : ((idx15.map (rowLine b)).map (seq_score color)).sum =
      (idx15.map (fun r => lineScoreSpec color (rowLine b r))).sum := by
    rw [List.map_map]
    congr 1
    exact List.map_congr_left (fun r _ => seq_score_eq color (rowLine b r))
  have hcol : ((idx15.map (colLine b)).map (seq_score color)).sum =
      (idx15.map (fun c => lineScoreSpec color (colLine b c))).sum := by
    rw [List.map_map]
    congr 1
    exact List.map_congr_left (fun c _ => seq_score_eq color (colLine b c))
  have hpair : (dRange.map (fun d => (([diag1Line b d, diag2Line b d]).map
      (seq_score color)).sum)).sum =
      (dRange.map (fun d => lineScoreSpec color (diag1Line b d))).sum +
      (dRange.map (fun d => lineScoreSpec color (antiDiagLine b (14 - d)))).sum := by
    have h1 : (dRange.map (fun d => (([diag1Line b d, diag2Line b d]).map
        (seq_score color)).sum)).sum =
        (dRange.map (fun d => lineScoreSpec color (diag1Line b d) +
          lineScoreSpec color (antiDiagLine b (14 - d)))).sum := by
      congr 1
      apply List.map_congr_left
      intro d _
      simp only [List.map_cons, List.map_nil, List.sum_cons, List.sum_nil]
      rw [seq_score_eq, seq_score_eq, diag2_eq_antiDiag]
      ring
    rw [h1, sum_map_add]
  have hreindex : (dRange.map (fun d => lineScoreSpec color (antiDiagLine b (14 - d)))).sum =
      (sRange.map (fun s => lineScoreSpec color (antiDiagLine b s))).sum := by
    have hlist : dRange.map (fun d => (14 : Int) - d) = sRange.reverse := by decide
    have h2 : dRange.map (fun d => lineScoreSpec color (antiDiagLine b (14 - d))) =
        (dRange.map (fun d => (14 : Int) - d)).map
          (fun s => lineScoreSpec color (antiDiagLine b s)) := by
      rw [List.map_map]
      rfl
    rw [h2, hlist, List.map_reverse]
    exact List.sum_reverse _
  rw [hrow, hcol, hpair, hreindex]
  unfold score_color_spec
  ring

/-! ## Value bounds (used for claims C4 and C3) -/

theorem windowRaw_bounds (seq : List (Option Color)) (stones : List Int) (i : Nat) :
    0 ≤ windowRaw seq stones i ∧ windowRaw seq stones i ≤ 100000 := by
  simp only [windowRaw]
  split_ifs <;> norm_num

theorem sum_map_le {α : Type} (f : α → Int) (K : Int) :
    ∀ l : List α, (∀ a ∈ l, f a ≤ K) → (l.map f).sum ≤ l.length * K
  | [], _ => by simp
  | a :: l, h => by
      simp only [List.map_cons, List.sum_cons, List.length_cons]
      have h1 := h a (List.mem_cons_self _ _)
      have h2 := sum_map_le f K l (fun x hx => h x (List.mem_cons_of_mem _ hx))
      have : ((l.length : Int) + 1) * K = l.length * K + K := by ring
      push_cast
      omega

theorem sum_map_nonneg {α : Type} (f : α → Int) :
    ∀ l : List α, (∀ a ∈ l, 0 ≤ f a) → 0 ≤ (l.map f).sum
  | [], _ => by simp
  | a :: l, h => by
      simp only [List.map_cons, List.sum_cons]
      have h1 := h a (List.mem_cons_self _ _)
      have h2 := sum_map_nonneg f l (fun x hx => h x (List.mem_cons_of_mem _ hx))
      omega

theorem seq_score_bounds (color : Color) (seq : List (Option Color))
    (hlen : seq.length ≤ 15) :
    0 ≤ seq_score color seq ∧ seq_score color seq ≤ 1100000 := by
  simp only [seq_score]
  constructor
  · exact sum_map_nonneg _ _ (fun i _ => (windowRaw_bounds seq _ i).1)
  · have h := sum_map_le (fun i => windowRaw seq (seq.map (stoneVal color)) i) 100000
      (List.range (seq.length - 4)) (fun i _ => (windowRaw_bounds seq _ i).2)
    have hlr : (List.range (seq.length - 4)).length ≤ 11 := by
      rw [List.length_range]
      omega
    have : ((List.range (seq.length - 4)).length : Int) * 100000 ≤ 11 * 100000 := by
      have : ((List.range (seq.length - 4)).length : Int) ≤ 11 := by exact_mod_cast hlr
      nlinarith
    omega

theorem idx15_length : idx15.length = 15 := by
  rw [idx15_eq]
  rfl

theorem allLines_line_len {b : Board} {line : List (Option Color)}
    (h : line ∈ allLines b) : line.length ≤ 15 := by
  simp only [allLines, List.mem_append, List.mem_map, List.mem_flatMap] at h
  rcases h with (⟨r, _, rfl⟩ | ⟨c, _, rfl⟩) | ⟨d, _, hmem⟩
  · simp only [rowLine, List.length_map, idx15_length]
    omega
  · simp only [colLine, List.length_map, idx15_length]
    omega
  · have h1 : (diag1Line b d).length ≤ 15 := by
      have h := List.length_filterMap_le
        (fun r => if 0 ≤ r + d ∧ r + d < 15 then some (b r (r + d)) else none) idx15
      rw [idx15_length] at h
      exact h
    have h2 : (diag2Line b d).length ≤ 15 := by
      have h := List.length_filterMap_le
        (fun r => if 0 ≤ 14 - r - d ∧ 14 - r - d < 15 then some (b r (14 - r - d)) else none)
        idx15
      rw [idx15_length] at h
      exact h
    rcases hmem with hm | hm
    · split at hm
      · rcases List.mem_singleton.mp hm with rfl
        exact h1
      · cases hm
    · split at hm
      · rcases List.mem_singleton.mp hm with rfl
        exact h2
      · cases hm

theorem flatMap_length_le {α β : Type} (g : α → List β) (k : Nat) :
    ∀ l : List α, (∀ a ∈ l, (g a).length ≤ k) → (l.flatMap g).length ≤ l.length * k
  | [], _ => by simp
  | a :: l, h => by
      simp only [List.flatMap_cons, List.length_append, List.length_cons]
      have h1 := h a (List.mem_cons_self _ _)
      have h2 := flatMap_length_le g k l (fun x hx => h x (List.mem_cons_of_mem _ hx))
      have : (l.length + 1) * k = l.length * k + k := by ring
      omega

theorem allLines_length_le (b : Board) : (allLines b).length ≤ 72 := by
  simp only [allLines, List.length_append, List.length_map]
  have h : (dRange.flatMap (fun d =>
      (if 5 ≤ (diag1Line b d).length then [diag1Line b d] else []) ++
      (if 5 ≤ (diag2Line b d).length then [diag2Line b d] else []))).length ≤
      dRange.length * 2 := by
    apply flatMap_length_le
    intro d _
    rw [List.length_append]
    have e1 : (if 5 ≤ (diag1Line b d).length then [diag1Line b d] else []).length ≤ 1 := by
      split <;> simp
    have e2 : (if 5 ≤ (diag2Line b d).length then [diag2Line b d] else []).length ≤ 1 := by
      split <;> simp
    omega
  have hd : dRange.length = 21 := by decide
  rw [idx15_length]
  omega

theorem score_color_bounds (b : Board) (color : Color) :
    0 ≤ score_color b color ∧ score_color b color ≤ 79200000 := by
  unfold score_color
  constructor
  · exact sum_map_nonneg _ _
      (fun line hl => (seq_score_bounds color line (allLines_line_len hl)).1)
  · have h := sum_map_le (seq_score color) 1100000 (allLines b)
      (fun line hl => (seq_score_bounds color line (allLines_line_len hl)).2)
    have hlen := allLines_length_le b
    have : ((allLines b).length : Int) * 1100000 ≤ 72 * 1100000 := by
      have : ((allLines b).length : Int) ≤ 72 := by exact_mod_cast hlen
      nlinarith
    omega

theorem evaluate_bounds (b : Board) (color : Color) :
    -79200000 ≤ evaluate b color ∧ evaluate b color ≤ 79200000 := by
  unfold evaluate
  have h1 := score_color_bounds b color
  have h2 := score_color_bounds b (oppOf color)
  omega

theorem ordered_candidates_ne_nil {b : Board} {ai : Color}
    (h : candidate_moves b ≠ []) : ordered_candidates b ai ≠ [] := by
  intro hnil
  rw [ordered_candidates_eq_tiers] at hnil
  simp only [List.append_eq_nil] at hnil
  obtain ⟨⟨⟨h0, h1⟩, h2⟩, h3⟩ := hnil
  have hperm := four_filter_perm (tierOf b ai) (candidate_moves b)
    (fun a _ => tierOf_lt_four b ai a)
  rw [h0, h1, h2, h3] at hperm
  simp only [List.nil_append] at hperm
  exact h (hperm.symm.eq_nil)

theorem applyCap_none (b : Board) (mover other : Color) (oc : List (Int × Int)) :
    applyCap b mover other oc none = oc := rfl

/-- A positive cap never empties a nonempty candidate list: the
forcing tiers are kept whole, and with no forcing move the whole list
is the `rest` tier, of which `cap ≥ 1` moves survive. -/
theorem applyCap_some_ne_nil (b : Board) (mover other : Color) (oc : List (Int × Int))
    (cap : Nat) (hcap : 1 ≤ cap) (hoc : oc ≠ []) :
    applyCap b mover other oc (some cap) ≠ [] := by
  simp only [applyCap]
  intro hnil
  simp only [List.append_eq_nil] at hnil
  obtain ⟨⟨⟨hw, hb⟩, hd⟩, ht⟩ := hnil
  rw [hw] at hb hd ht
  rw [hb] at hd ht
  rw [hd] at ht
  have htake : oc.take cap = [] := by simpa using ht
  rcases List.take_eq_nil_iff.mp htake with h | h
  · omega
  · exact hoc h

theorem maxLoop_le (rec : Board → Int → Int → Int × Board) (ai : Color) (useAb : Bool)
    (hrec : ∀ s a bt, -79200000 ≤ (rec s a bt).1 ∧ (rec s a bt).1 ≤ 79200000) :
    ∀ (ms : List (Int × Int)) (value alpha beta : Int) (st : Board),
      value ≤ 79200000 →
      (maxLoop rec ai useAb ms value alpha beta st).1 ≤ 79200000 ∧
      ((ms = [] → -79200000 ≤ value) →
        -79200000 ≤ (maxLoop rec ai useAb ms value alpha beta st).1)
  | [], value, alpha, beta, st, hv => ⟨hv, fun h => h rfl⟩
  | (r, c) :: ms, value, alpha, beta, st, hv => by
      simp only [maxLoop]
      generalize hres : (if is_win_at (setCell st r c (some ai)) r c ai
          then ((100000 : Int), setCell st r c (some ai))
          else rec (setCell st r c (some ai)) alpha beta) = res
      have hev : -79200000 ≤ res.1 ∧ res.1 ≤ 79200000 := by
        rw [← hres]
        split
        · norm_num
        · exact hrec _ _ _
      have hv'le : (if res.1 > value then res.1 else value) ≤ 79200000 := by
        split <;> omega
      have hv'ge : -79200000 ≤ (if res.1 > value then res.1 else value) := by
        split <;> omega
      generalize hval : (if res.1 > value then res.1 else value) = value' at hv'le hv'ge
      generalize halpha : (if value' > alpha then value' else alpha) = alpha'
      split
      · split
        · exact ⟨hv'le, fun _ => hv'ge⟩
        · have ih := maxLoop_le rec ai useAb hrec ms value' alpha' beta (setCell res.2 r c none) hv'le
          exact ⟨ih.1, fun _ => ih.2 (fun _ => hv'ge)⟩
      · have ih := maxLoop_le rec ai useAb hrec ms value' alpha beta (setCell res.2 r c none) hv'le
        exact ⟨ih.1, fun _ => ih.2 (fun _ => hv'ge)⟩

theorem minLoop_ge (rec : Board → Int → Int → Int × Board) (opp : Color) (useAb : Bool)
    (hrec : ∀ s a bt, -79200000 ≤ (rec s a bt).1 ∧ (rec s a bt).1 ≤ 79200000) :
    ∀ (ms : List (Int × Int)) (value alpha beta : Int) (st : Board),
      -79200000 ≤ value →
      -79200000 ≤ (minLoop rec opp useAb ms value alpha beta st).1 ∧
      ((ms = [] → value ≤ 79200000) →
        (minLoop rec opp useAb ms value alpha beta st).1 ≤ 79200000)
  | [], value, alpha, beta, st, hv => ⟨hv, fun h => h rfl⟩
  | (r, c) :: ms, value, alpha, beta, st, hv => by
      simp only [minLoop]
      generalize hres : (if is_win_at (setCell st r c (some opp)) r c opp
          then ((-100000 : Int), setCell st r c (some opp))
          else rec (setCell st r c (some opp)) alpha beta) = res
      have hev : -79200000 ≤ res.1 ∧ res.1 ≤ 79200000 := by
        rw [← hres]
        split
        · norm_num
        · exact hrec _ _ _
      have hv'ge : -79200000 ≤ (if res.1 < value then res.1 else value) := by
        split <;> omega
      have hv'le : (if res.1 < value then res.1 else value) ≤ 79200000 := by
        split <;> omega
      generalize hval : (if res.1 < value then res.1 else value) = value' at hv'ge hv'le
      generalize hbeta : (if value' < beta then value' else beta) = beta'
      split
      · split
        · exact ⟨hv'ge, fun _ => hv'le⟩
        · have ih := minLoop_ge rec opp useAb hrec ms value' alpha beta' (setCell res.2 r c none) hv'ge
          exact ⟨ih.1, fun _ => ih.2 (fun _ => hv'le)⟩
      · have ih := minLoop_ge rec opp useAb hrec ms value' alpha beta (setCell res.2 r c none) hv'ge
        exact ⟨ih.1, fun _ => ih.2 (fun _ => hv'le)⟩

/-- `minimaxF` values lie within the static-evaluation range whenever
the candidate cap (if any) is positive: every non-leaf node keeps a
nonempty candidate list, so the ±10⁹ sentinels are never returned. -/
theorem minimaxF_bounds :
    ∀ (fuel : Nat) (depth : Int) (st : Board) (maximizing : Bool) (ai opp : Color)
      (alpha beta : Int) (useAb : Bool) (maxc : Option Nat), maxc ≠ some 0 →
      -79200000 ≤ (minimaxF fuel depth st maximizing ai opp alpha beta useAb maxc).1 ∧
      (minimaxF fuel depth st maximizing ai opp alpha beta useAb maxc).1 ≤ 79200000
  | 0, _, st, _, ai, _, _, _, _, _, _ => evaluate_bounds st ai
  | f + 1, depth, st, maximizing, ai, opp, alpha, beta, useAb, maxc, hmc => by
      simp only [minimaxF]
      split
      · exact evaluate_bounds st ai
      · rename_i hleaf
        have hcand : candidate_moves st ≠ [] := fun hh => hleaf (Or.inr hh)
        have hocn : ∀ mover other : Color,
            applyCap st mover other (ordered_candidates st mover) maxc ≠ [] := by
          intro mover other
          cases maxc with
          | none =>
              rw [applyCap_none]
              exact ordered_candidates_ne_nil hcand
          | some cap =>
              have hcap : 1 ≤ cap := by
                rcases Nat.eq_zero_or_pos cap with h | h
                · exact absurd (by rw [h]) hmc
                · exact h
              exact applyCap_some_ne_nil st mover other _ cap hcap
                (ordered_candidates_ne_nil hcand)
        split
        · cases hoc : applyCap st ai opp (ordered_candidates st ai) maxc with
          | nil => exact absurd hoc (hocn ai opp)
          | cons m ms =>
              have h := maxLoop_le
                (fun s a bt => minimaxF f (depth - 1) s false ai opp a bt useAb maxc)
                ai useAb
                (fun s a bt => minimaxF_bounds f (depth - 1) s false ai opp a bt useAb maxc hmc)
                (m :: ms) (-(10 ^ 9)) alpha beta st (by norm_num)
              exact ⟨h.2 (fun hh => absurd hh (List.cons_ne_nil _ _)), h.1⟩
        · cases hoc : applyCap st opp ai (ordered_candidates st opp) maxc with
          | nil => exact absurd hoc (hocn opp ai)
          | cons m ms =>
              have h := minLoop_ge
                (fun s a bt => minimaxF f (depth - 1) s true ai opp a bt useAb maxc)
                opp useAb
                (fun s a bt => minimaxF_bounds f (depth - 1) s true ai opp a bt useAb maxc hmc)
                (m :: ms) (10 ^ 9) alpha beta st (by norm_num)
              exact ⟨h.1, h.2 (fun hh => absurd hh (List.cons_ne_nil _ _))⟩

/-- `minimax` values (cap absent or positive) stay within the
evaluation range. -/
theorem minimax_bounds (depth : Int) (st : Board) (maximizing : Bool) (ai opp : Color)
    (alpha beta : Int) (useAb : Bool) (maxc : Option Nat) (hmc : maxc ≠ some 0) :
    -79200000 ≤ (minimax depth st maximizing ai opp alpha beta useAb maxc).1 ∧
    (minimax depth st maximizing ai opp alpha beta useAb maxc).1 ≤ 79200000 :=
  minimaxF_bounds 226 depth st maximizing ai opp alpha beta useAb maxc hmc

/-! ## When `ai_search` returns a move (claim C4) -/

theorem candidate_moves_eq_nil {b : Board} (h : get_empty_cells b = []) :
    candidate_moves b = [] := by
  have hall : ∀ m ∈ allCells, ¬((b m.1 m.2 == none) = true) := by
    intro m hm
    have := List.filter_eq_nil_iff.mp h m hm
    simpa using this
  have hany : allCells.any (fun m => (b m.1 m.2).isSome) = true := by
    rw [List.any_eq_true]
    refine ⟨(0, 0), by decide, ?_⟩
    have h00 := hall (0, 0) (by decide)
    simp only [beq_iff_eq] at h00
    exact Option.isSome_iff_ne_none.mpr h00
  simp [candidate_moves, hany, h]

theorem candidate_moves_ne_nil {b : Board} (h : get_empty_cells b ≠ []) :
    candidate_moves b ≠ [] := by
  simp only [candidate_moves]
  split
  · split
    · exact h
    · assumption
  · simp

theorem rootLoop_isSome_preserved (rec : Board → Int → Int → Int × Board)
    (ai : Color) (useAb : Bool) :
    ∀ (ms : List (Int × Int)) (best : Option (Int × Int)) (bscore alpha beta : Int)
      (st : Board), best.isSome = true →
      (rootLoop rec ai useAb ms best bscore alpha beta st).1.isSome = true
  | [], _, _, _, _, _, hb => hb
  | (r, c) :: ms, best, bscore, alpha, beta, st, hb => by
      simp only [rootLoop]
      generalize rec (setCell st r c (some ai)) alpha beta = res
      have hb' : (if res.1 > bscore then some (r, c) else best).isSome = true := by
        split
        · rfl
        · exact hb
      generalize hbest : (if res.1 > bscore then some (r, c) else best) = best' at hb'
      generalize (if res.1 > bscore then res.1 else bscore) = bscore'
      generalize (if bscore' > alpha then bscore' else alpha) = alpha'
      split
      · split
        · exact hb'
        · exact rootLoop_isSome_preserved rec ai useAb ms best' bscore' alpha' beta _ hb'
      · exact rootLoop_isSome_preserved rec ai useAb ms best' bscore' alpha beta _ hb'

theorem rootLoop_head_some (rec : Board → Int → Int → Int × Board)
    (ai : Color) (useAb : Bool)
    (hrec : ∀ s a bt, -79200000 ≤ (rec s a bt).1 ∧ (rec s a bt).1 ≤ 79200000)
    (r c : Int) (ms : List (Int × Int)) (alpha beta : Int) (st : Board) :
    (rootLoop rec ai useAb ((r, c) :: ms) none (-(10 ^ 9)) alpha beta st).1.isSome = true := by
  simp only [rootLoop]
  generalize hres : rec (setCell st r c (some ai)) alpha beta = res
  have hgt : res.1 > -(10 ^ 9) := by
    have h := hrec (setCell st r c (some ai)) alpha beta
    rw [hres] at h
    omega
  rw [if_pos hgt, if_pos hgt]
  split
  · split
    · split
      · rfl
      · exact rootLoop_isSome_preserved rec ai useAb ms (some (r, c)) _ _ beta _ rfl
    · split
      · rfl
      · exact rootLoop_isSome_preserved rec ai useAb ms (some (r, c)) _ _ beta _ rfl
  · exact rootLoop_isSome_preserved rec ai useAb ms (some (r, c)) _ alpha beta _ rfl

/-- C4 amended: on a full board `ai_search` returns `none` for every
cap; and whenever an empty cell exists it returns a move both without
a cap and with every cap `≥ 1` — a positive cap keeps at least one
root candidate and capped child values stay strictly inside the ±10⁹
sentinels.  Only `max_candidates = 0` breaks the claim: see the
counterexample, where it empties the root candidate list. -/
theorem ai_search_none_iff (st : Board) (ai opp : Color) (depth : Int) (useAb : Bool) :
    (∀ maxc : Option Nat, get_empty_cells st = [] →
      (ai_search st ai opp depth useAb maxc).1 = none) ∧
    (∀ maxc : Option Nat, maxc ≠ some 0 → 1 ≤ depth → get_empty_cells st ≠ [] →
      ((ai_search st ai opp depth useAb maxc).1).isSome = true) := by
  constructor
  · intro maxc hfull
    have hcand : candidate_moves st = [] := candidate_moves_eq_nil hfull
    have hoc : ordered_candidates st ai = [] := by
      rw [ordered_candidates_eq_tiers, hcand]
      rfl
    have hcap : applyCap st ai opp (ordered_candidates st ai) maxc = [] := by
      cases maxc with
      | none => exact hoc
      | some cap => simp [applyCap, hoc]
    simp only [ai_search]
    rw [hcap]
    rfl
  · intro maxc hmc _ hne
    have hcne : candidate_moves st ≠ [] := candidate_moves_ne_nil hne
    have hocne : applyCap st ai opp (ordered_candidates st ai) maxc ≠ [] := by
      cases maxc with
      | none =>
          rw [applyCap_none]
          exact ordered_candidates_ne_nil hcne
      | some cap =>
          have hcap : 1 ≤ cap := by
            rcases Nat.eq_zero_or_pos cap with h | h
            · exact absurd (by rw [h]) hmc
            · exact h
          exact applyCap_some_ne_nil st ai opp _ cap hcap
            (ordered_candidates_ne_nil hcne)
    cases hoc : applyCap st ai opp (ordered_candidates st ai) maxc with
    | nil => exact absurd hoc hocne
    | cons m ms =>
        obtain ⟨r, c⟩ := m
        simp only [ai_search]
        rw [hoc]
        exact rootLoop_head_some _ ai useAb
          (fun s a bt => minimax_bounds (depth - 1) s false ai opp a bt useAb maxc hmc)
          r c ms _ _ st

/-- C4 counterexample: with `max_candidates = 0` on a board holding a
single stone (so empty cells abound but no win/block/defensive move
exists), the capped root candidate list is empty and `ai_search`
returns `none`. -/
theorem ai_search_cap_zero_none :
    (ai_search bOneStone Color.white Color.black 1 false (some 0)).1 = none ∧
    get_empty_cells bOneStone ≠ [] := by
  constructor
  · decide
  · decide

/-- Witness for the amended C4: a full board gives `none` under a cap;
one empty cell gives a move, both uncapped and with cap 1. -/
theorem ai_search_none_iff_witness :
    (ai_search bFull Color.white Color.black 2 false (some 3)).1 = none ∧
    ((ai_search bNearFull Color.white Color.black 1 false none).1).isSome = true ∧
    ((ai_search bNearFull Color.white Color.black 1 false (some 1)).1).isSome = true :=
  ⟨(ai_search_none_iff bFull Color.white Color.black 2 false).1 (some 3) (by decide),
   (ai_search_none_iff bNearFull Color.white Color.black 1 false).2 none (by decide)
     (by norm_num) (by decide),
   (ai_search_none_iff bNearFull Color.white Color.black 1 false).2 (some 1) (by decide)
     (by norm_num) (by decide)⟩

/-! ## Alpha-beta pruning is invisible at depth ≤ 2 (claim C3) -/

/-- In a minimizing loop the running value only decreases. -/
theorem minLoop_plain_le (rec : Board → Int → Int → Int × Board) (opp : Color) :
    ∀ (ms : List (Int × Int)) (value alpha beta : Int) (st : Board),
      (minLoop rec opp false ms value alpha beta st).1 ≤ value
  | [], _, _, _, _ => le_refl _
  | (r, c) :: ms, value, alpha, beta, st => by
      simp only [minLoop]
      generalize hres : (if is_win_at (setCell st r c (some opp)) r c opp
          then ((-100000 : Int), setCell st r c (some opp))
          else rec (setCell st r c (some opp)) alpha beta) = res
      have hle : (if res.1 < value then res.1 else value) ≤ value := by
        split <;> omega
      generalize hval : (if res.1 < value then res.1 else value) = value' at hle
      exact le_trans (minLoop_plain_le rec opp ms value' alpha beta _) hle

/-- In a plain maximizing loop the running value only increases. -/
theorem maxLoop_plain_ge (rec : Board → Int → Int → Int × Board) (ai : Color) :
    ∀ (ms : List (Int × Int)) (value alpha beta : Int) (st : Board),
      value ≤ (maxLoop rec ai false ms value alpha beta st).1
  | [], _, _, _, _ => le_refl _
  | (r, c) :: ms, value, alpha, beta, st => by
      simp only [maxLoop]
      generalize hres : (if is_win_at (setCell st r c (some ai)) r c ai
          then ((100000 : Int), setCell st r c (some ai))
          else rec (setCell st r c (some ai)) alpha beta) = res
      have hge : value ≤ (if res.1 > value then res.1 else value) := by
        split <;> omega
      generalize hval : (if res.1 > value then res.1 else value) = value' at hge
      exact le_trans hge (maxLoop_plain_ge rec ai ms value' alpha beta _)

/-- The Knuth–Moore fail-soft relation carried through a maximizing
candidate loop.  `pf` is the plain value of a child board; the loop is
entered with `alpha = max α₀ vT` (the source's `if value > alpha`
update keeps exactly this invariant), a running value below `beta`,
and the two running values related by the loop invariant; the final
values are then related by the fail-soft triple on the window
`(α₀, β)`: a pruned value at or below `α₀` bounds the plain value from
above, one at or above `β` bounds it from below, and one strictly
inside the window is exact. -/
theorem maxLoopKM (recT recF : Board → Int → Int → Int × Board) (pf : Board → Int)
    (ai : Color) (aF bF : Int)
    (hbT : ∀ s a bt, (recT s a bt).2 = s) (hbF : ∀ s a bt, (recF s a bt).2 = s)
    (hFval : ∀ s, (recF s aF bF).1 = pf s)
    (hrel : ∀ s a bt, -(10 ^ 9) ≤ a → bt ≤ 10 ^ 9 → a < bt →
      ((recT s a bt).1 ≤ a → pf s ≤ (recT s a bt).1) ∧
      (bt ≤ (recT s a bt).1 → (recT s a bt).1 ≤ pf s) ∧
      (a < (recT s a bt).1 → (recT s a bt).1 < bt → (recT s a bt).1 = pf s))
    (α₀ β : Int) (hα : -(10 ^ 9) ≤ α₀) (hβ : β ≤ 10 ^ 9) (hαβ : α₀ < β) :
    ∀ (ms : List (Int × Int)) (vT vF : Int) (st : Board),
      (∀ m ∈ ms, st m.1 m.2 = none) → vT < β →
      (vT = vF ∨ (vT ≤ α₀ ∧ vF ≤ vT)) →
      ((maxLoop recT ai true ms vT (max α₀ vT) β st).1 ≤ α₀ →
        (maxLoop recF ai false ms vF aF bF st).1 ≤
          (maxLoop recT ai true ms vT (max α₀ vT) β st).1) ∧
      (β ≤ (maxLoop recT ai true ms vT (max α₀ vT) β st).1 →
        (maxLoop recT ai true ms vT (max α₀ vT) β st).1 ≤
          (maxLoop recF ai false ms vF aF bF st).1) ∧
      (α₀ < (maxLoop recT ai true ms vT (max α₀ vT) β st).1 →
        (maxLoop recT ai true ms vT (max α₀ vT) β st).1 < β →
        (maxLoop recT ai true ms vT (max α₀ vT) β st).1 =
          (maxLoop recF ai false ms vF aF bF st).1)
  | [], vT, vF, st, _, hvb, hinv => by
      simp only [maxLoop]
      exact ⟨fun h => by omega, fun h => by omega, fun h1 h2 => by omega⟩
  | (r, c) :: ms, vT, vF, st, hm, hvb, hinv => by
      have hempty : st r c = none := hm (r, c) (List.mem_cons_self _ _)
      have hrest : ∀ m ∈ ms, st m.1 m.2 = none :=
        fun m hmem => hm m (List.mem_cons_of_mem _ hmem)
      simp only [maxLoop, Bool.false_eq_true, eq_self_iff_true, if_true, if_false]
      generalize hresT : (if is_win_at (setCell st r c (some ai)) r c ai
          then ((100000 : Int), setCell st r c (some ai))
          else recT (setCell st r c (some ai)) (max α₀ vT) β) = resT
      generalize hresF : (if is_win_at (setCell st r c (some ai)) r c ai
          then ((100000 : Int), setCell st r c (some ai))
          else recF (setCell st r c (some ai)) aF bF) = resF
      have hT2 : resT.2 = setCell st r c (some ai) := by
        rw [← hresT]; split
        · rfl
        · exact hbT _ _ _
      have hF2 : resF.2 = setCell st r c (some ai) := by
        rw [← hresF]; split
        · rfl
        · exact hbF _ _ _
      rw [hT2, hF2, setCell_restore hempty]
      have hc : (resT.1 ≤ max α₀ vT → resF.1 ≤ resT.1) ∧
          (β ≤ resT.1 → resT.1 ≤ resF.1) ∧
          (max α₀ vT < resT.1 → resT.1 < β → resT.1 = resF.1) := by
        rw [← hresT, ← hresF]
        by_cases hwin : is_win_at (setCell st r c (some ai)) r c ai = true
        · rw [if_pos hwin, if_pos hwin]
          exact ⟨fun _ => le_refl _, fun _ => le_refl _, fun _ _ => rfl⟩
        · rw [if_neg hwin, if_neg hwin]
          have h := hrel (setCell st r c (some ai)) (max α₀ vT) β
            (le_trans hα (le_max_left _ _)) hβ (by omega)
          rw [← hFval (setCell st r c (some ai))] at h
          exact h
      have hvT : (if resT.1 > vT then resT.1 else vT) = max vT resT.1 := by
        split <;> omega
      have hvF : (if resF.1 > vF then resF.1 else vF) = max vF resF.1 := by
        split <;> omega
      rw [hvT, hvF]
      have halpha : (if max vT resT.1 > max α₀ vT then max vT resT.1 else max α₀ vT) =
          max α₀ (max vT resT.1) := by
        split <;> omega
      rw [halpha]
      by_cases hbr : max α₀ (max vT resT.1) ≥ β
      · rw [if_pos hbr]
        have hcut : β ≤ resT.1 := by omega
        have hle := hc.2.1 hcut
        have hge := maxLoop_plain_ge recF ai ms (max vF resF.1) aF bF st
        exact ⟨fun h => by omega, fun _ => by omega, fun h1 h2 => by omega⟩
      · rw [if_neg hbr]
        have h1 := hc.1
        have h3 := hc.2.2
        have hvb' : max vT resT.1 < β := by omega
        have hinv' : max vT resT.1 = max vF resF.1 ∨
            (max vT resT.1 ≤ α₀ ∧ max vF resF.1 ≤ max vT resT.1) := by omega
        exact maxLoopKM recT recF pf ai aF bF hbT hbF hFval hrel α₀ β hα hβ hαβ
          ms (max vT resT.1) (max vF resF.1) st hrest hvb' hinv'

/-- The Knuth–Moore fail-soft relation carried through a minimizing
candidate loop: the mirror image of `maxLoopKM`, with
`beta = min β₀ vT` tracking the source's `if value < beta` update. -/
theorem minLoopKM (recT recF : Board → Int → Int → Int × Board) (pf : Board → Int)
    (opp : Color) (aF bF : Int)
    (hbT : ∀ s a bt, (recT s a bt).2 = s) (hbF : ∀ s a bt, (recF s a bt).2 = s)
    (hFval : ∀ s, (recF s aF bF).1 = pf s)
    (hrel : ∀ s a bt, -(10 ^ 9) ≤ a → bt ≤ 10 ^ 9 → a < bt →
      ((recT s a bt).1 ≤ a → pf s ≤ (recT s a bt).1) ∧
      (bt ≤ (recT s a bt).1 → (recT s a bt).1 ≤ pf s) ∧
      (a < (recT s a bt).1 → (recT s a bt).1 < bt → (recT s a bt).1 = pf s))
    (α β₀ : Int) (hα : -(10 ^ 9) ≤ α) (hβ : β₀ ≤ 10 ^ 9) (hαβ : α < β₀) :
    ∀ (ms : List (Int × Int)) (vT vF : Int) (st : Board),
      (∀ m ∈ ms, st m.1 m.2 = none) → α < vT →
      (vT = vF ∨ (β₀ ≤ vT ∧ vT ≤ vF)) →
      ((minLoop recT opp true ms vT α (min β₀ vT) st).1 ≤ α →
        (minLoop recF opp false ms vF aF bF st).1 ≤
          (minLoop recT opp true ms vT α (min β₀ vT) st).1) ∧
      (β₀ ≤ (minLoop recT opp true ms vT α (min β₀ vT) st).1 →
        (minLoop recT opp true ms vT α (min β₀ vT) st).1 ≤
          (minLoop recF opp false ms vF aF bF st).1) ∧
      (α < (minLoop recT opp true ms vT α (min β₀ vT) st).1 →
        (minLoop recT opp true ms vT α (min β₀ vT) st).1 < β₀ →
        (minLoop recT opp true ms vT α (min β₀ vT) st).1 =
          (minLoop recF opp false ms vF aF bF st).1)
  | [], vT, vF, st, _, hva, hinv => by
      simp only [minLoop]
      exact ⟨fun h => by omega, fun h => by omega, fun h1 h2 => by omega⟩
  | (r, c) :: ms, vT, vF, st, hm, hva, hinv => by
      have hempty : st r c = none := hm (r, c) (List.mem_cons_self _ _)
      have hrest : ∀ m ∈ ms, st m.1 m.2 = none :=
        fun m hmem => hm m (List.mem_cons_of_mem _ hmem)
      simp only [minLoop, Bool.false_eq_true, eq_self_iff_true, if_true, if_false]
      generalize hresT : (if is_win_at (setCell st r c (some opp)) r c opp
          then ((-100000 : Int), setCell st r c (some opp))
          else recT (setCell st r c (some opp)) α (min β₀ vT)) = resT
      generalize hresF : (if is_win_at (setCell st r c (some opp)) r c opp
          then ((-100000 : Int), setCell st r c (some opp))
          else recF (setCell st r c (some opp)) aF bF) = resF
      have hT2 : resT.2 = setCell st r c (some opp) := by
        rw [← hresT]; split
        · rfl
        · exact hbT _ _ _
      have hF2 : resF.2 = setCell st r c (some opp) := by
        rw [← hresF]; split
        · rfl
        · exact hbF _ _ _
      rw [hT2, hF2, setCell_restore hempty]
      have hc : (resT.1 ≤ α → resF.1 ≤ resT.1) ∧
          (min β₀ vT ≤ resT.1 → resT.1 ≤ resF.1) ∧
          (α < resT.1 → resT.1 < min β₀ vT → resT.1 = resF.1) := by
        rw [← hresT, ← hresF]
        by_cases hwin : is_win_at (setCell st r c (some opp)) r c opp = true
        · rw [if_pos hwin, if_pos hwin]
          exact ⟨fun _ => le_refl _, fun _ => le_refl _, fun _ _ => rfl⟩
        · rw [if_neg hwin, if_neg hwin]
          have h := hrel (setCell st r c (some opp)) α (min β₀ vT)
            hα (by omega) (by omega)
          rw [← hFval (setCell st r c (some opp))] at h
          exact h
      have hvT : (if resT.1 < vT then resT.1 else vT) = min vT resT.1 := by
        split <;> omega
      have hvF : (if resF.1 < vF then resF.1 else vF) = min vF resF.1 := by
        split <;> omega
      rw [hvT, hvF]
      have hbeta : (if min vT resT.1 < min β₀ vT then min vT resT.1 else min β₀ vT) =
          min β₀ (min vT resT.1) := by
        split <;> omega
      rw [hbeta]
      by_cases hbr : α ≥ min β₀ (min vT resT.1)
      · rw [if_pos hbr]
        have hcut : resT.1 ≤ α := by omega
        have hle := hc.1 hcut
        have hplain := minLoop_plain_le recF opp ms (min vF resF.1) aF bF st
        exact ⟨fun _ => by omega, fun h => by omega, fun h1 h2 => by omega⟩
      · rw [if_neg hbr]
        have h1 := hc.1
        have h2 := hc.2.1
        have h3 := hc.2.2
        have hva' : α < min vT resT.1 := by omega
        have hinv' : min vT resT.1 = min vF resF.1 ∨
            (β₀ ≤ min vT resT.1 ∧ min vT resT.1 ≤ min vF resF.1) := by omega
        exact minLoopKM recT recF pf opp aF bF hbT hbF hFval hrel α β₀ hα hβ hαβ
          ms (min vT resT.1) (min vF resF.1) st hrest hva' hinv'

/-- The Knuth–Moore fail-soft property of alpha-beta `minimaxF`
against the plain run (whose window stays pinned at the full
`(-10⁹, 10⁹)` it receives from the root), for every fuel, every depth
— negative depths included — and both node types: a value at or below
`alpha` bounds the plain value from above, one at or above `beta`
bounds it from below, and one strictly inside the window is exact. -/
theorem minimaxF_KM :
    ∀ (fuel : Nat) (depth : Int) (st : Board) (maximizing : Bool) (ai opp : Color)
      (a b : Int), -(10 ^ 9) ≤ a → b ≤ 10 ^ 9 → a < b →
      ((minimaxF fuel depth st maximizing ai opp a b true none).1 ≤ a →
        (minimaxF fuel depth st maximizing ai opp (-(10 ^ 9)) (10 ^ 9) false none).1 ≤
          (minimaxF fuel depth st maximizing ai opp a b true none).1) ∧
      (b ≤ (minimaxF fuel depth st maximizing ai opp a b true none).1 →
        (minimaxF fuel depth st maximizing ai opp a b true none).1 ≤
          (minimaxF fuel depth st maximizing ai opp (-(10 ^ 9)) (10 ^ 9) false none).1) ∧
      (a < (minimaxF fuel depth st maximizing ai opp a b true none).1 →
        (minimaxF fuel depth st maximizing ai opp a b true none).1 < b →
        (minimaxF fuel depth st maximizing ai opp a b true none).1 =
          (minimaxF fuel depth st maximizing ai opp (-(10 ^ 9)) (10 ^ 9) false none).1)
  | 0, _, _, _, _, _, a, b, ha, hb, hab =>
      ⟨fun _ => le_refl _, fun _ => le_refl _, fun _ _ => rfl⟩
  | fuel + 1, depth, st, maximizing, ai, opp, a, b, ha, hb, hab => by
      simp only [minimaxF]
      split
      · exact ⟨fun _ => le_refl _, fun _ => le_refl _, fun _ _ => rfl⟩
      · split
        · rw [applyCap_none]
          have h := maxLoopKM
            (fun s a2 bt => minimaxF fuel (depth - 1) s false ai opp a2 bt true none)
            (fun s a2 bt => minimaxF fuel (depth - 1) s false ai opp a2 bt false none)
            (fun s =>
              (minimaxF fuel (depth - 1) s false ai opp (-(10 ^ 9)) (10 ^ 9) false none).1)
            ai (-(10 ^ 9)) (10 ^ 9)
            (fun s a2 bt => minimaxF_board fuel (depth - 1) s false ai opp a2 bt true none)
            (fun s a2 bt => minimaxF_board fuel (depth - 1) s false ai opp a2 bt false none)
            (fun s => rfl)
            (fun s a2 bt ha2 hb2 hab2 =>
              minimaxF_KM fuel (depth - 1) s false ai opp a2 bt ha2 hb2 hab2)
            a b ha hb hab
            (ordered_candidates st ai) (-(10 ^ 9)) (-(10 ^ 9)) st
            (fun m hmem => candidate_moves_empty (ordered_candidates_subset hmem))
            (by omega) (Or.inl rfl)
          rw [show max a (-(10 ^ 9)) = a from by omega] at h
          exact h
        · rw [applyCap_none]
          have h := minLoopKM
            (fun s a2 bt => minimaxF fuel (depth - 1) s true ai opp a2 bt true none)
            (fun s a2 bt => minimaxF fuel (depth - 1) s true ai opp a2 bt false none)
            (fun s =>
              (minimaxF fuel (depth - 1) s true ai opp (-(10 ^ 9)) (10 ^ 9) false none).1)
            opp (-(10 ^ 9)) (10 ^ 9)
            (fun s a2 bt => minimaxF_board fuel (depth - 1) s true ai opp a2 bt true none)
            (fun s a2 bt => minimaxF_board fuel (depth - 1) s true ai opp a2 bt false none)
            (fun s => rfl)
            (fun s a2 bt ha2 hb2 hab2 =>
              minimaxF_KM fuel (depth - 1) s true ai opp a2 bt ha2 hb2 hab2)
            a b ha hb hab
            (ordered_candidates st opp) (10 ^ 9) (10 ^ 9) st
            (fun m hmem => candidate_moves_empty (ordered_candidates_subset hmem))
            (by omega) (Or.inl rfl)
          rw [show min b (10 ^ 9) = b from by omega] at h
          exact h

/-- The root loop chooses the same move and score with and without
alpha-beta, provided each searched child either returns its exact
plain value or was cut off below the running best (`hrel`), children
restore the board, and alpha-beta children stay within the evaluation
bounds. -/
theorem rootLoop_ab (recT recF : Board → Int → Int → Int × Board) (ai : Color)
    (hbT : ∀ s a bt, (recT s a bt).2 = s) (hbF : ∀ s a bt, (recF s a bt).2 = s)
    (hboundT : ∀ s a bt, -79200000 ≤ (recT s a bt).1 ∧ (recT s a bt).1 ≤ 79200000)
    (hrel : ∀ (s : Board) (al : Int), -(10 ^ 9) ≤ al → al ≤ 79200000 →
      (recT s al (10 ^ 9)).1 = (recF s (-(10 ^ 9)) (10 ^ 9)).1 ∨
      ((recT s al (10 ^ 9)).1 ≤ al ∧
        (recF s (-(10 ^ 9)) (10 ^ 9)).1 ≤ (recT s al (10 ^ 9)).1)) :
    ∀ (ms : List (Int × Int)) (best : Option (Int × Int)) (bscore : Int) (st : Board),
      (∀ m ∈ ms, st m.1 m.2 = none) → -(10 ^ 9) ≤ bscore → bscore ≤ 79200000 →
      (rootLoop recT ai true ms best bscore bscore (10 ^ 9) st).1 =
        (rootLoop recF ai false ms best bscore (-(10 ^ 9)) (10 ^ 9) st).1 ∧
      (rootLoop recT ai true ms best bscore bscore (10 ^ 9) st).2.1 =
        (rootLoop recF ai false ms best bscore (-(10 ^ 9)) (10 ^ 9) st).2.1
  | [], best, bscore, st, _, _, _ => ⟨rfl, rfl⟩
  | (r, c) :: ms, best, bscore, st, hm, hs0, hs => by
      have hempty : st r c = none := hm (r, c) (List.mem_cons_self _ _)
      have hrest : ∀ m ∈ ms, st m.1 m.2 = none :=
        fun m hmem => hm m (List.mem_cons_of_mem _ hmem)
      simp only [rootLoop, Bool.false_eq_true, eq_self_iff_true, if_true, if_false]
      rw [hbT (setCell st r c (some ai)) bscore (10 ^ 9),
        hbF (setCell st r c (some ai)) (-(10 ^ 9)) (10 ^ 9), setCell_restore hempty]
      have hr := hrel (setCell st r c (some ai)) bscore hs0 hs
      have hbnd := hboundT (setCell st r c (some ai)) bscore (10 ^ 9)
      generalize hvT : (recT (setCell st r c (some ai)) bscore (10 ^ 9)).1 = vaT at hr hbnd ⊢
      generalize hvF : (recF (setCell st r c (some ai)) (-(10 ^ 9)) (10 ^ 9)).1 = vaF at hr ⊢
      rcases hr with heq | ⟨hcut, hmono⟩
      · rw [← heq]
        have hsge : bscore ≤ (if vaT > bscore then vaT else bscore) := by split <;> omega
        have hsle : (if vaT > bscore then vaT else bscore) ≤ 79200000 := by split <;> omega
        have hsge0 : -(10 ^ 9) ≤ (if vaT > bscore then vaT else bscore) := by
          split <;> omega
        generalize hsT : (if vaT > bscore then vaT else bscore) = bscore' at hsge hsle hsge0 ⊢
        have halpha : (if bscore' > bscore then bscore' else bscore) = bscore' := by
          split <;> omega
        rw [halpha]
        rw [if_neg (by omega : ¬(bscore' ≥ 10 ^ 9))]
        exact rootLoop_ab recT recF ai hbT hbF hboundT hrel ms _ bscore' st hrest hsge0 hsle
      · have hTno : ¬(vaT > bscore) := by omega
        have hFno : ¬(vaF > bscore) := by omega
        rw [if_neg hTno, if_neg hTno, if_neg hFno, if_neg hFno]
        have halpha : (if bscore > bscore then bscore else bscore) = bscore := by
          split <;> rfl
        rw [halpha]
        rw [if_neg (by omega : ¬(bscore ≥ 10 ^ 9))]
        exact rootLoop_ab recT recF ai hbT hbF hboundT hrel ms best bscore st hrest hs0 hs

/-- C3: for every depth ≤ 2 and no candidate cap, `ai_search` with
alpha-beta enabled returns the same chosen move and the same best
score as `ai_search` without alpha-beta on the identical board.  The
proof does not in fact use the depth bound: `minimaxF_KM` gives the
fail-soft relation at every depth, including `depth ≤ 0`, where both
runs hand the root children a full-tree search. -/
theorem alpha_beta_depth2_equiv (st : Board) (ai opp : Color) (depth : Int)
    (hdep : depth ≤ 2) :
    (ai_search st ai opp depth true none).1 = (ai_search st ai opp depth false none).1 ∧
    (ai_search st ai opp depth true none).2.1 =
      (ai_search st ai opp depth false none).2.1 := by
  simp only [ai_search, applyCap_none]
  apply rootLoop_ab
  · intro s a bt
    exact minimax_board (depth - 1) s false ai opp a bt true none
  · intro s a bt
    exact minimax_board (depth - 1) s false ai opp a bt false none
  · intro s a bt
    exact minimax_bounds (depth - 1) s false ai opp a bt true none (by decide)
  · intro s al hal0 hal
    have hbnd := minimaxF_bounds 226 (depth - 1) s false ai opp al (10 ^ 9) true none
      (by decide)
    have hKM := minimaxF_KM 226 (depth - 1) s false ai opp al (10 ^ 9) hal0 (le_refl _)
      (by omega)
    by_cases hle : (minimaxF 226 (depth - 1) s false ai opp al (10 ^ 9) true none).1 ≤ al
    · exact Or.inr ⟨hle, hKM.1 hle⟩
    · exact Or.inl (hKM.2.2 (by omega) (by omega))
  · intro m hmem
    exact candidate_moves_empty (ordered_candidates_subset hmem)
  · norm_num
  · norm_num

/-- Witness for C3: both search modes pick the same move at depth 2 on
a concrete near-full board. -/
theorem alpha_beta_depth2_equiv_witness :
    (ai_search bTwoEmpty Color.white Color.black 2 true none).1 =
      (ai_search bTwoEmpty Color.white Color.black 2 false none).1 ∧
    (ai_search bTwoEmpty Color.white Color.black 2 true none).2.1 =
      (ai_search bTwoEmpty Color.white Color.black 2 false none).2.1 :=
  alpha_beta_depth2_equiv bTwoEmpty Color.white Color.black 2 (by norm_num)
